import Mathlib

/-!
Verification of the url2md core: the flat TSV table store (`tsv_manager.py`),
the resource cache (`cache.py`, `urlinfo.py`) and the classification engine
(`report.py`), shallowly embedded in Lean.

Python strings are modelled as `List Char`; Python `int` as `Int`;
Python floats (classification scores) as exact rationals `ℚ`;
the file system as explicit values passed through the functions.
-/

namespace Url2md

/-- Convert a Lean string literal to the `List Char` model of Python strings. -/
def str (s : String) : List Char := s.data

/-- The whitespace characters stripped by Python `str.strip()`: exactly those
for which `str.isspace()` is true, i.e. the characters of Unicode bidirectional
class WS, B or S or of category Zs — ASCII 9–13 (tab, LF, VT, FF, CR), the
separators 28–31, the space 32, NEL (U+0085), NBSP (U+00A0), the Ogham space
mark (U+1680), the space separators U+2000–U+200A, the line and paragraph
separators U+2028/U+2029, the narrow no-break space (U+202F), the medium
mathematical space (U+205F) and the ideographic space (U+3000). -/
def isPyWS (c : Char) : Bool :=
  (9 ≤ c.toNat && c.toNat ≤ 13) || (28 ≤ c.toNat && c.toNat ≤ 32) ||
  c.toNat == 0x85 || c.toNat == 0xA0 || c.toNat == 0x1680 ||
  (0x2000 ≤ c.toNat && c.toNat ≤ 0x200A) ||
  c.toNat == 0x2028 || c.toNat == 0x2029 || c.toNat == 0x202F ||
  c.toNat == 0x205F || c.toNat == 0x3000

/-- Python `str.strip()`: remove leading and trailing whitespace. -/
def pyStrip (s : List Char) : List Char :=
  ((s.dropWhile isPyWS).reverse.dropWhile isPyWS).reverse

/-- Python `str.split(sep)` for a single-character separator. -/
def splitOnChar (sep : Char) : List Char → List (List Char)
  | [] => [[]]
  | c :: rest =>
    if c = sep then [] :: splitOnChar sep rest
    else
      match splitOnChar sep rest with
      | [] => [[c]]
      | g :: gs => (c :: g) :: gs

/-- Split a line on tab characters, as Python `line.split('\t')`. -/
def splitTab (s : List Char) : List (List Char) := splitOnChar '\t' s

/-- Join fields with tab characters, as Python `'\t'.join(fields)`. -/
def joinTab : List (List Char) → List Char
  | [] => []
  | [f] => f
  | f :: rest => f ++ '\t' :: joinTab rest

/-- Python `s.replace(a, b)` for single characters `a`, `b`. -/
def replaceChar (a b : Char) (s : List Char) : List Char :=
  s.map (fun c => if c = a then b else c)

/-- Python `s.replace(a, '')` for a single character `a`: delete every occurrence. -/
def removeChar (a : Char) (s : List Char) : List Char :=
  s.filter (fun c => !(c == a))

/-- Python `s.replace('\r\n', ' ')`: the leftmost-first non-overlapping scan. -/
def replaceCRLF : List Char → List Char
  | '\r' :: '\n' :: rest => ' ' :: replaceCRLF rest
  | c :: rest => c :: replaceCRLF rest
  | [] => []

/-- Python `s in t` substring test (`True` when `s` is empty). -/
def containsSub (needle : List Char) : List Char → Bool
  | [] => needle.isEmpty
  | c :: rest => needle.isPrefixOf (c :: rest) || containsSub needle rest

/-- Python `s.split(pat)[0]`: the part of `s` before the first occurrence of `pat`
(all of `s` when `pat` does not occur). -/
def takeBeforeSub (pat : List Char) : List Char → List Char
  | [] => []
  | c :: rest =>
    if pat.isPrefixOf (c :: rest) then []
    else c :: takeBeforeSub pat rest

/-- Python `s.isdigit()` restricted to ASCII: nonempty and all decimal digits. -/
def pyIsDigit (s : List Char) : Bool := !s.isEmpty && s.all (·.isDigit)

/-- Decimal digit character for a value below ten. -/
def digitChar (n : Nat) : Char := "0123456789".data.getD n '9'

/-- Numeric value of a decimal digit character. -/
def charDigitVal (c : Char) : Nat :=
  match c with
  | '0' => 0 | '1' => 1 | '2' => 2 | '3' => 3 | '4' => 4
  | '5' => 5 | '6' => 6 | '7' => 7 | '8' => 8 | _ => 9

/-- Decimal digits of `n`, most significant first (fuel-driven so it computes). -/
def natReprAux : Nat → Nat → List Char
  | 0, _ => []
  | fuel + 1, n =>
    if n < 10 then [digitChar n]
    else natReprAux fuel (n / 10) ++ [digitChar (n % 10)]

/-- Python `str(n)` for a natural number. -/
def natRepr (n : Nat) : List Char := natReprAux (n + 1) n

/-- Python `str(i)` for an integer. -/
def intRepr (i : Int) : List Char :=
  if i < 0 then '-' :: natRepr i.natAbs else natRepr i.toNat

/-- Numeric value of a string of decimal digits, as Python `int(s)` on digit input. -/
def digitsToNat (s : List Char) : Nat :=
  s.foldl (fun a c => a * 10 + charDigitVal c) 0

/-- Hexadecimal digit character for a value below sixteen. -/
def hexDigit (n : Nat) : Char := "0123456789abcdef".data.getD n 'f'

/-- Hexadecimal digits of `n`, most significant first (fuel-driven so it computes). -/
def hexReprAux : Nat → Nat → List Char
  | 0, _ => []
  | fuel + 1, n =>
    if n < 16 then [hexDigit n]
    else hexReprAux fuel (n / 16) ++ [hexDigit (n % 16)]

/-- Render `n` as exactly `w` lowercase hex digits (left-padded with zeros). -/
def hexPad (w : Nat) (n : Nat) : List Char :=
  let ds := hexReprAux (w + 130) n
  List.replicate (w - ds.length) '0' ++ ds

/-- Modelled from the spec: the record's `contentHash` is "a stable digest of
`url`" produced in the code by `hashlib.md5(url.encode()).hexdigest()`, a
primitive of the external Python standard library (not part of this
repository).  It is modelled as a deterministic 32-hex-digit digest of the
string; every property proved below uses only that it is a pure function of
the url producing 32 lowercase hex characters. -/
def md5_hexdigest (s : List Char) : List Char :=
  hexPad 32 (s.foldl (fun a c => (a * 131 + c.toNat + 7) % 2 ^ 128) 88172645463325252)

/-- Modelled from the spec: the record's `domain` is "the derived, lower-cased
host component of `url`; empty if unparsable", produced in the code by
`urllib.parse.urlparse(url).netloc.lower()`, a primitive of the external
Python standard library.  Modelled as the run after the first `//` up to the
next `/`, `?` or `#`, lower-cased; every property proved below uses only that
it is a pure function of the url. -/
def urlparse_netloc : List Char → List Char
  | '/' :: '/' :: rest =>
    (rest.takeWhile (fun c => !(c == '/' || c == '?' || c == '#'))).map Char.toLower
  | _ :: rest => urlparse_netloc rest
  | [] => []

/-! ## `tsv_manager.py`: the flat table store -/

/-- `tsv_manager.sanitize_tsv_field`: the chain
`value.replace('\r\n', ' ').replace('\r', ' ').replace('\n', ' ').replace('\t', ' ')`. -/
def sanitize_tsv_field (value : List Char) : List Char :=
  replaceChar '\t' ' ' (replaceChar '\n' ' ' (replaceChar '\r' ' ' (replaceCRLF value)))

/-- The text `TSVManager.save` writes: the sanitized header line (when the
header is nonempty) followed by one sanitized line per data row, each line
terminated by a newline. -/
def renderTSV (header : List (List Char)) (data : List (List (List Char))) : List Char :=
  (if header.isEmpty then [] else joinTab (header.map sanitize_tsv_field) ++ ['\n'])
    ++ (data.map (fun row => joinTab (row.map sanitize_tsv_field) ++ ['\n'])).flatten

/-- A reader's view of the two file-system paths `TSVManager.save` touches:
the target TSV file and the `.tmp` temporary; `none` means the path is absent. -/
structure FileView where
  target : Option (List Char)
  temp : Option (List Char)
deriving DecidableEq

/-- Every intermediate file-system state of `TSVManager.save`, in order:
the temporary file grows one character at a time while the target holds its
old contents; then, when a target file existed, it is unlinked
(`self.tsv_path.unlink()`), leaving the path absent; finally
`temp_path.rename(self.tsv_path)` installs the new contents. -/
def TSVManager.saveTrace (oldTarget : Option (List Char))
    (header : List (List Char)) (data : List (List (List Char))) : List FileView :=
  let content := renderTSV header data
  ((List.range (content.length + 1)).map (fun k => ⟨oldTarget, some (content.take k)⟩))
    ++ (if oldTarget.isSome then [⟨none, some content⟩] else [])
    ++ [⟨some content, none⟩]

/-- Python `readlines` followed by per-line processing: since every consumer
strips each line, the kept-`\n` suffixes are dropped here (a file ending in a
newline yields no trailing empty line, and an empty file yields no lines). -/
def pyLines (s : List Char) : List (List Char) :=
  if s.isEmpty then []
  else if (splitOnChar '\n' s).getLast? = some [] then (splitOnChar '\n' s).dropLast
  else splitOnChar '\n' s

/-- `TSVManager.load`: an absent file leaves empty header and data; otherwise
the first line (stripped) is the header and every nonempty stripped remaining
line is a row, split on tab. -/
def TSVManager.load (file : Option (List Char)) : List (List Char) × List (List (List Char)) :=
  match file with
  | none => ([], [])
  | some content =>
    match pyLines content with
    | [] => ([], [])
    | l0 :: rest =>
      (splitTab (pyStrip l0),
       rest.filterMap (fun l =>
         let l' := pyStrip l
         if l'.isEmpty then none else some (splitTab l')))

/-! ## `urlinfo.py`: the resource record -/

/-- `urlinfo.URLInfo`: one cached-resource record.  `hash` and `domain` are
ordinary fields here; the dataclass derives them in `__post_init__`, modelled
by the smart constructor `URLInfo.make` below. -/
structure URLInfo where
  url : List Char
  filename : List Char
  fetch_date : List Char
  status : List Char
  content_type : List Char
  size : Int
  error : List Char
  hash : List Char
  domain : List Char
deriving DecidableEq

/-- Constructing a `URLInfo`: the dataclass `__init__` followed by
`__post_init__`, which derives `hash` from the url and `domain` as the
lower-cased netloc (empty when the url is empty). -/
def URLInfo.make (url filename fetch_date status content_type : List Char)
    (size : Int) (error : List Char) : URLInfo :=
  { url := url, filename := filename, fetch_date := fetch_date, status := status,
    content_type := content_type, size := size, error := error,
    hash := md5_hexdigest url,
    domain := if url.isEmpty then [] else urlparse_netloc url }

/-- The error-field escaping of `URLInfo.to_tsv_line`:
`error.replace('\t', ' ').replace('\n', ' ').replace('\r', '')` — tab and
linefeed become single spaces, carriage returns are deleted. -/
def sanitize_error (v : List Char) : List Char :=
  removeChar '\r' (replaceChar '\n' ' ' (replaceChar '\t' ' ' v))

/-- `URLInfo.to_tsv_line`: the eight fields joined by tabs, the error field
escaped by `sanitize_error`. -/
def URLInfo.to_tsv_line (u : URLInfo) : List Char :=
  joinTab [u.url, u.hash, u.filename, u.fetch_date, u.status, u.content_type,
           intRepr u.size, sanitize_error u.error]

deriving instance DecidableEq for Except

/-- Field `i` of a split line, defaulting to the empty string. -/
def nth (parts : List (List Char)) (i : Nat) : List Char := (parts.get? i).getD []

/-- `URLInfo.from_tsv_line`: strip and split the line; fewer than seven parts
raise `ValueError` (modelled by `Except.error`); the error field may be
missing; the size parses only when all digits; the hash generated from the
url is then overridden by the stored column. -/
def URLInfo.from_tsv_line (line : List Char) : Except (List Char) URLInfo :=
  let parts := splitTab (pyStrip line)
  if parts.length < 7 then .error line
  else
    let error := if parts.length > 7 then nth parts 7 else []
    let info := URLInfo.make (nth parts 0) (nth parts 2) (nth parts 3) (nth parts 4)
      (nth parts 5)
      (if pyIsDigit (nth parts 6) then (digitsToNat (nth parts 6) : Int) else 0) error
    .ok { info with hash := nth parts 1 }

/-! ## `cache.py`: the resource cache

The in-memory `Dict[str, URLInfo]` keyed by `url_info.url` is modelled as a
list of records in insertion order with Python-dict upsert semantics. -/

/-- `Cache.get`: look a url up in the entry map. -/
def lookupEntry (entries : List URLInfo) (url : List Char) : Option URLInfo :=
  entries.find? (fun e => e.url == url)

/-- Python-dict assignment `self._entries[url_info.url] = url_info`: replace in
place when the key is present, else append. -/
def upsertEntry (entries : List URLInfo) (v : URLInfo) : List URLInfo :=
  if entries.any (fun e => e.url == v.url) then
    entries.map (fun e => if e.url == v.url then v else e)
  else entries ++ [v]

/-- The header row `Cache.save` writes. -/
def cacheHeader : List (List Char) :=
  [str "url", str "hash", str "filename", str "fetch_date", str "status",
   str "content_type", str "size", str "error"]

/-- One iteration of the entry-building loop of `Cache.load`: a row with fewer
than seven columns is skipped (without any warning); a longer row is padded to
eight columns, re-joined and parsed by `URLInfo.from_tsv_line`, a `ValueError`
from which is caught with a warning.  The accumulator carries the entry map
and the number of warnings printed. -/
def loadStep (acc : List URLInfo × Nat) (row : List (List Char)) : List URLInfo × Nat :=
  if row.length ≥ 7 then
    match URLInfo.from_tsv_line (joinTab (row ++ List.replicate (8 - row.length) [])) with
    | .ok info => (upsertEntry acc.1 info, acc.2)
    | .error _ => (acc.1, acc.2 + 1)
  else acc

/-- The entry-building loop of `Cache.load` over the loaded TSV rows. -/
def Cache.loadEntries (data : List (List (List Char))) : List URLInfo × Nat :=
  data.foldl loadStep ([], 0)

/-- `Cache.save`: the header and one `to_tsv_line`-split row per entry, handed
to `TSVManager.save`; this is the final file content it installs. -/
def Cache.saveFile (entries : List URLInfo) : List Char :=
  renderTSV cacheHeader (entries.map (fun u => splitTab u.to_tsv_line))

/-- `Cache.load` in a fresh instance reading the given file: `TSVManager.load`
followed by the entry-building loop. -/
def Cache.loadFromFile (file : Option (List Char)) : List URLInfo × Nat :=
  Cache.loadEntries (TSVManager.load file).2

/-- `pathlib` join `dir / name`: joining the empty name leaves the directory
path unchanged, as `Path(d) / "" == Path(d)`. -/
def pathJoin (dir name : List Char) : List Char :=
  if name.isEmpty then dir else dir ++ '/' :: name

/-- `Cache.content_dir`: the `content` subdirectory of the cache directory. -/
def content_dir (cacheDir : List Char) : List Char := cacheDir ++ str "/content"

/-- `Cache.get_content_path`: the content directory joined with the record's
filename. -/
def get_content_path (cacheDir : List Char) (u : URLInfo) : List Char :=
  pathJoin (content_dir cacheDir) u.filename

/-- Modelled from the spec: the extension is "derived from `contentType` via
MIME-to-extension lookup", performed in the code by the external standard
library `mimetypes.guess_extension`; modelled as a small deterministic table.
Every property proved below uses only that a returned extension is nonempty. -/
def guess_extension (ct : List Char) : Option (List Char) :=
  if ct = str "text/html" then some (str ".html")
  else if ct = str "text/plain" then some (str ".txt")
  else if ct = str "application/pdf" then some (str ".pdf")
  else if ct = str "application/json" then some (str ".json")
  else if ct = str "image/png" then some (str ".png")
  else none

/-- `Cache.find_available_filename`: extension from the content type (default
`.html`); base name `hash + extension`; on collision with an existing file try
`hash-1`, `hash-2`, … until a free name is found.  `files` is the set of paths
present on disk; since at most `files.length` candidate names can collide, the
search is bounded by `files.length + 1` counters (the Python `while True` loop
always stops within that range). -/
def find_available_filename (files : List (List Char)) (cacheDir : List Char)
    (u : URLInfo) : List Char :=
  let extension :=
    match (if u.content_type.isEmpty then none else guess_extension u.content_type) with
    | some ext => ext
    | none => str ".html"
  let base := u.hash ++ extension
  if !(files.contains (pathJoin (content_dir cacheDir) base)) then base
  else
    (((List.range (files.length + 1)).map
        (fun i => u.hash ++ '-' :: natRepr (i + 1) ++ extension)).find?
      (fun f => !(files.contains (pathJoin (content_dir cacheDir) f)))).getD
      (u.hash ++ '-' :: natRepr (files.length + 1) ++ extension)

/-- `cache.CacheResult`. -/
structure CacheResult where
  success : Bool
  url_info : URLInfo
  downloaded : Bool
deriving DecidableEq

/-- The cache state `fetch_and_cache_url` reads and writes: the in-memory entry
map and the set of files present in the content directory.  (The per-domain
access times drive only the courtesy sleep, which has no modelled effect.) -/
structure CacheState where
  entries : List URLInfo
  files : List (List Char)
deriving DecidableEq

/-- The outcome of one `fetch_and_cache_url` call: its returned `CacheResult`,
the cache state afterwards, whether the network fetch was attempted, and
whether `self.save()` persisted the table. -/
structure FetchOutcome where
  result : CacheResult
  state : CacheState
  fetched : Bool
  savedTable : Bool
deriving DecidableEq

/-- The content-type cleaning of the success path of `fetch_and_cache_url`:
`if url_info.content_type and ';' in url_info.content_type:` take the part
before the `;`, stripped. -/
def clean_content_type (fetchedCT : List Char) : List Char :=
  if ¬fetchedCT.isEmpty ∧ containsSub [';'] fetchedCT then
    pyStrip (nth (splitOnChar ';' fetchedCT) 0)
  else fetchedCT

/-- The record a successful fetch attempt builds: content type set by the
fetch and cleaned, fetch date set, a free filename chosen, the body's size and
status `success` recorded. -/
def successRecord (cacheDir : List Char) (files : List (List Char))
    (url_info : URLInfo) (now fetchedCT content : List Char) : URLInfo :=
  let ui1 := { url_info with
    content_type := clean_content_type fetchedCT
    fetch_date := now }
  let ui2 := { ui1 with filename := find_available_filename files cacheDir ui1 }
  { ui2 with size := (content.length : Int), status := str "success" }

/-- The record a failed fetch attempt builds: the message (trimmed of a
trailing `" at http..."`, the Playwright format), status `error` and the fetch
date recorded. -/
def errorRecord (url_info : URLInfo) (now msg : List Char) : URLInfo :=
  let msg' := if containsSub (str " at http") msg then takeBeforeSub (str " at http") msg
    else msg
  { url_info with error := msg', status := str "error", fetch_date := now }

/-- The fetch attempt of `Cache.fetch_and_cache_url` (its body past the
idempotent-skip check, shared by the retry and first-fetch paths): on success
build the success record, write the body to its content path, upsert and save;
on failure build the error record, upsert and save. -/
def fetchBody (cacheDir : List Char) (st : CacheState) (url_info : URLInfo)
    (now : List Char) (fetchRes : Except (List Char) (List Char × List Char)) :
    FetchOutcome :=
  match fetchRes with
  | .ok (content, fetchedCT) =>
    let ui3 := successRecord cacheDir st.files url_info now fetchedCT content
    ⟨⟨true, ui3, true⟩,
     ⟨upsertEntry st.entries ui3, get_content_path cacheDir ui3 :: st.files⟩,
     true, true⟩
  | .error msg =>
    let ui' := errorRecord url_info now msg
    ⟨⟨false, ui', false⟩, ⟨upsertEntry st.entries ui', st.files⟩, true, true⟩

/-- `Cache.fetch_and_cache_url`.  The network is a boundary collaborator, so
the outcome of `url_info.fetch_content` is an explicit argument: either an
error message or the fetched content together with the content type the fetch
assigns.  `now` stands for `datetime.now().isoformat()`.

If a prior record has status `success`, a nonempty filename and its content
file on disk, return that record successfully without fetching (idempotent
skip); otherwise run the fetch attempt on the prior record, or on a fresh
record when the url was never seen. -/
def fetch_and_cache_url (cacheDir : List Char) (st : CacheState) (url : List Char)
    (now : List Char) (fetchRes : Except (List Char) (List Char × List Char)) :
    FetchOutcome :=
  match lookupEntry st.entries url with
  | some ui =>
    if ui.status = str "success" ∧ ¬ui.filename.isEmpty
        ∧ st.files.contains (get_content_path cacheDir ui) then
      ⟨⟨true, ui, false⟩, st, false, false⟩
    else fetchBody cacheDir st ui now fetchRes
  | none => fetchBody cacheDir st (URLInfo.make url [] [] [] [] 0 []) now fetchRes

/-! ## `report.py`: the classification engine

Python float scores are modelled as exact rationals. -/

/-- `report.calculate_tag_match_weight`: `1.0` on equality; else the length
ratio when one string contains the other; else `0.0`. -/
def calculate_tag_match_weight (url_tag theme_tag : List Char) : ℚ :=
  if url_tag = theme_tag then 1
  else if containsSub url_tag theme_tag then (url_tag.length : ℚ) / theme_tag.length
  else if containsSub theme_tag url_tag then (theme_tag.length : ℚ) / url_tag.length
  else 0

/-- The theme-score loop of `classify_url_to_theme`: over every pair of a url
tag and a theme tag, add the match weight when it is positive. -/
def theme_raw_score (url_tags theme_tags : List (List Char)) : ℚ :=
  url_tags.foldl
    (fun acc url_tag =>
      theme_tags.foldl
        (fun acc2 theme_tag =>
          let match_weight := calculate_tag_match_weight url_tag theme_tag
          if match_weight > 0 then acc2 + match_weight else acc2)
        acc)
    0

/-- The per-theme data `classify_url_to_theme` consumes: `theme_data['name']`
and `theme_data['tags']`. -/
structure Theme where
  name : List Char
  tags : List (List Char)
deriving DecidableEq

/-- A Python weight dict `theme_weights : Dict[str, float]`, in insertion
order. -/
def lookupW (w : List (List Char × ℚ)) (k : List Char) : Option ℚ :=
  (w.find? (fun p => p.1 == k)).map (·.2)

/-- The score `classify_url_to_theme` computes for one theme: the raw tag
score, multiplied by the theme's weight when a weight dict was supplied (and
nonempty, by Python truthiness) and holds the theme's name. -/
def weighted_score (weights : Option (List (List Char × ℚ)))
    (url_tags : List (List Char)) (t : Theme) : ℚ :=
  let s := theme_raw_score url_tags t.tags
  match weights with
  | some ws =>
    match lookupW ws t.name with
    | some m => s * m
    | none => s
  | none => s

/-- A url summary as consumed by the classifier: `url_summary.get('tags', [])`
(the JSON object's other keys are irrelevant to classification). -/
structure URLSummary where
  tags : List (List Char)
deriving DecidableEq

/-- `report.classify_url_to_theme`: empty tag list is unclassified; otherwise
fold over the themes in order, keeping the first theme whose weighted score
strictly exceeds the best so far (starting from `None, 0.0`). -/
def classify_url_to_theme (url_summary : URLSummary) (themes : List Theme)
    (theme_weights : Option (List (List Char × ℚ))) : Option (List Char) × ℚ :=
  if url_summary.tags.isEmpty then (none, 0)
  else
    themes.foldl
      (fun best t =>
        let theme_score := weighted_score theme_weights url_summary.tags t
        if theme_score > best.2 then (some t.name, theme_score) else best)
      (none, 0)

/-- One element of `classification_data['themes']`: the JSON theme object.
The classification schema (`classify_schema.py`) declares `theme_name`,
`theme_description` and `tags`; `weight` models a weight key carried on the
theme object itself (the spec's per-theme "optional `weight`"), which the
code never reads. -/
structure ThemeInfo where
  theme_name : List Char
  theme_description : List Char
  tags : List (List Char)
  weight : Option ℚ
deriving DecidableEq

/-- The theme-weights defaulting loop of `classify_all_urls`: for every theme
name not already a key of the dict, insert it with weight `1.0`.  The code
mutates the caller's dict in place; the model returns the final dict. -/
def extendWeights (w : List (List Char × ℚ)) (themes_data : List ThemeInfo) :
    List (List Char × ℚ) :=
  themes_data.foldl
    (fun acc ti =>
      if (lookupW acc ti.theme_name).isSome then acc
      else acc ++ [(ti.theme_name, 1)])
    w

/-- `report.classify_all_urls`: build the theme list (name and tags) from the
classification data, default every missing theme weight to `1.0` (in the
caller's dict when one was supplied, else in a fresh one), classify every url,
and keep the classifications whose theme is truthy (not `None` and not the
empty string).  Returns the classifications and the final weight dict. -/
def classify_all_urls (url_summaries : List (List Char × URLSummary))
    (themes_data : List ThemeInfo) (theme_weights : Option (List (List Char × ℚ))) :
    List (List Char × List Char × ℚ) × List (List Char × ℚ) :=
  let w0 := theme_weights.getD []
  let themes := themes_data.map (fun ti => Theme.mk ti.theme_name ti.tags)
  let w := extendWeights w0 themes_data
  let url_classifications := url_summaries.filterMap
    (fun p =>
      match classify_url_to_theme p.2 themes (some w) with
      | (some theme, score) => if theme.isEmpty then none else some (p.1, theme, score)
      | (none, _) => none)
  (url_classifications, w)

/-! ## Helper lemmas -/

lemma containsSub_nil_left (b : List Char) : containsSub [] b = true := by
  cases b <;> simp [containsSub, List.isPrefixOf]

lemma containsSub_length_le : ∀ (b a : List Char), containsSub a b = true → a.length ≤ b.length := by
  intro b
  induction b with
  | nil =>
    intro a h
    simp [containsSub, List.isEmpty_iff] at h
    simp [h]
  | cons c rest ih =>
    intro a h
    simp only [containsSub, Bool.or_eq_true] at h
    rcases h with h | h
    · exact (List.isPrefixOf_iff_prefix.mp h).length_le
    · exact le_trans (ih a h) (by simp)

/-! ## Claim C1: `calculate_tag_match_weight` -/

/-- C1 counterexample: the claim states that an empty string has weight `0.0`
against another empty string, but `calculate_tag_match_weight("", "")` takes
the exact-equality branch and returns `1.0`. -/
theorem tag_match_weight_empty_empty_cex :
    calculate_tag_match_weight (str "") (str "") = 1 ∧ (1 : ℚ) ≠ 0 := by
  refine ⟨by norm_num [calculate_tag_match_weight, str], by norm_num⟩

/-- C1 (amended): the tag match weight is `1.0` exactly when the two strings
are equal — including two empty strings; otherwise, when one string is a
substring of the other, it is the length of the contained (shorter) string
divided by the length of the container; otherwise `0.0`.  An empty string has
weight `0.0` against every nonempty string. -/
theorem tag_match_weight_spec (a b : List Char) :
    (a = b → calculate_tag_match_weight a b = 1) ∧
    (a ≠ b → containsSub a b = true →
      calculate_tag_match_weight a b = (a.length : ℚ) / b.length ∧ a.length ≤ b.length) ∧
    (a ≠ b → containsSub a b = false → containsSub b a = true →
      calculate_tag_match_weight a b = (b.length : ℚ) / a.length ∧ b.length ≤ a.length) ∧
    (a ≠ b → containsSub a b = false → containsSub b a = false →
      calculate_tag_match_weight a b = 0) ∧
    (a = [] → b ≠ [] → calculate_tag_match_weight a b = 0) ∧
    (b = [] → a ≠ [] → calculate_tag_match_weight a b = 0) := by
  refine ⟨?_, ?_, ?_, ?_, ?_, ?_⟩
  · intro h; simp [calculate_tag_match_weight, h]
  · intro hne hsub
    exact ⟨by simp [calculate_tag_match_weight, hne, hsub], containsSub_length_le b a hsub⟩
  · intro hne hsub hsub'
    exact ⟨by simp [calculate_tag_match_weight, hne, hsub, hsub'],
           containsSub_length_le a b hsub'⟩
  · intro hne hsub hsub'
    simp [calculate_tag_match_weight, hne, hsub, hsub']
  · intro ha hb
    subst ha
    have hne : ([] : List Char) ≠ b := fun h => hb h.symm
    simp [calculate_tag_match_weight, if_neg hne, containsSub_nil_left b, hb]
  · intro hb ha
    subst hb
    have hsub : containsSub a [] = false := by
      simp [containsSub, List.isEmpty_iff, ha]
    simp [calculate_tag_match_weight, if_neg ha, hsub, containsSub_nil_left a]

/-- C1 witness: `tagMatchWeight("math", "applied_math")` is the
partial-credit ratio `4/12`, and the contained string is the shorter one. -/
theorem tag_match_weight_spec_witness :
    calculate_tag_match_weight (str "math") (str "applied_math")
        = ((str "math").length : ℚ) / (str "applied_math").length
      ∧ (str "math").length ≤ (str "applied_math").length :=
  (tag_match_weight_spec (str "math") (str "applied_math")).2.1 (by decide) (by decide)

/-! ## Claim C3: atomicity of `TSVManager.save` -/

/-- C3 counterexample: the claim states a reader of the target path never
observes an absent table file, but `save` unlinks the target before renaming
the temporary over it, so in that window the target path is absent: the save
trace of a file holding `"h\n"` being rewritten to `"h\nx\n"` contains a
state whose target is `none`, which is neither the complete previous contents
nor the complete new contents. -/
theorem save_trace_absent_cex :
    FileView.mk none (some (str "h\nx\n")) ∈
        TSVManager.saveTrace (some (str "h\n")) [str "h"] [[str "x"]]
      ∧ (FileView.mk none (some (str "h\nx\n"))).target ≠ some (str "h\n")
      ∧ (FileView.mk none (some (str "h\nx\n"))).target ≠ some (str "h\nx\n") := by
  refine ⟨by decide, by decide, by decide⟩

/-- C3 (amended): `TSVManager.save` writes the sanitized header and rows to a
temporary file and then replaces the target by unlink-then-rename, so at every
intermediate point a reader of the target path observes the complete previous
file contents, the complete new contents, or — in the window between unlink
and rename, when a previous file existed — no file at all; never a
half-written table.  The final state holds exactly the new contents, with the
temporary gone. -/
theorem save_trace_spec (old : Option (List Char)) (header : List (List Char))
    (data : List (List (List Char))) :
    (∀ v ∈ TSVManager.saveTrace old header data,
       v.target = old ∨ v.target = none ∨ v.target = some (renderTSV header data)) ∧
    (TSVManager.saveTrace old header data).getLast?
       = some ⟨some (renderTSV header data), none⟩ := by
  constructor
  · intro v hv
    simp only [TSVManager.saveTrace, List.mem_append, List.mem_map,
      List.mem_range, List.mem_singleton] at hv
    rcases hv with (⟨k, _, hk⟩ | hv) | hv
    · left; rw [← hk]
    · rcases h : old.isSome with _ | _
      · rw [h] at hv; simp at hv
      · rw [h] at hv; simp at hv
        right; left; rw [hv]
    · right; right; rw [hv]
  · have hne : (if old.isSome then
        [FileView.mk none (some (renderTSV header data))] else [])
        ++ [FileView.mk (some (renderTSV header data)) none] ≠ [] := by
      rcases old.isSome with _ | _ <;> simp
    rw [TSVManager.saveTrace, List.append_assoc,
      List.getLast?_append_of_ne_nil _ hne,
      List.getLast?_append_of_ne_nil _ (by simp)]
    rfl

/-- C3 witness: in the concrete rewrite of `"h\n"` to `"h\nx\n"`, the state
where the target still holds the old contents and the temporary holds the
first two characters of the new contents is in the trace, and it satisfies the
amended disjunction. -/
theorem save_trace_spec_witness :
    (FileView.mk (some (str "h\n")) (some (str "h\n"))).target = some (str "h\n")
      ∨ (FileView.mk (some (str "h\n")) (some (str "h\n"))).target = none
      ∨ (FileView.mk (some (str "h\n")) (some (str "h\n"))).target
          = some (renderTSV [str "h"] [[str "x"]]) :=
  (save_trace_spec (some (str "h\n")) [str "h"] [[str "x"]]).1
    (FileView.mk (some (str "h\n")) (some (str "h\n"))) (by decide)

/-! ## Claim C8: the hash field of a record -/

/-- C8 counterexample: the claim states that a record obtained by parsing a
persisted row has its hash equal to the digest recomputed from its url, but
`from_tsv_line` overrides the generated hash with the stored column: parsing a
row whose hash column holds `"XX"` yields a record with hash `"XX"`, which is
not the digest of the url `"u"`. -/
theorem from_tsv_line_stored_hash_cex :
    (URLInfo.from_tsv_line (str "u\tXX\tf\td\ts\tc\t0\te")).map URLInfo.hash
        = .ok (str "XX")
      ∧ str "XX" ≠ md5_hexdigest (str "u") := by
  refine ⟨by decide, by decide⟩

/-- C8 (amended): a record newly constructed in memory has its hash derived
from its url, so there `contentHash` is a pure function of `url`; a record
obtained by parsing a persisted table row instead carries the stored hash
column verbatim (`from_tsv_line` overrides the generated hash), so for parsed
records the invariant holds exactly when the stored column equals the
recomputed digest. -/
theorem urlinfo_hash_spec :
    (∀ url filename fetch_date status content_type size error,
       (URLInfo.make url filename fetch_date status content_type size error).hash
         = md5_hexdigest url) ∧
    (∀ line u, URLInfo.from_tsv_line line = .ok u →
       u.hash = nth (splitTab (pyStrip line)) 1) := by
  constructor
  · intro url filename fetch_date status content_type size error
    rfl
  · intro line u h
    rw [URLInfo.from_tsv_line] at h
    by_cases hlen : (splitTab (pyStrip line)).length < 7
    · simp [hlen] at h
    · simp only [hlen, if_false] at h
      cases h
      rfl

/-- C8 witness: a freshly constructed record's hash is the digest of its url,
and the record parsed from the concrete row with stored hash column `"XX"`
carries exactly that column. -/
theorem urlinfo_hash_spec_witness :
    (URLInfo.make (str "https://a.example/x") [] [] [] [] 0 []).hash
        = md5_hexdigest (str "https://a.example/x")
      ∧ ({ URLInfo.make (str "u") (str "f") (str "d") (str "s") (str "c") 0 (str "e")
            with hash := str "XX" } : URLInfo).hash
          = nth (splitTab (pyStrip (str "u\tXX\tf\td\ts\tc\t0\te"))) 1 :=
  ⟨urlinfo_hash_spec.1 (str "https://a.example/x") [] [] [] [] 0 [],
   urlinfo_hash_spec.2 (str "u\tXX\tf\td\ts\tc\t0\te") _ (by decide)⟩

/-! ## Claim C9: short rows in `Cache.load` -/

lemma loadStep_short (acc : List URLInfo × Nat) (row : List (List Char))
    (h : row.length < 7) : loadStep acc row = acc := by
  simp [loadStep, Nat.not_le.mpr h]

lemma foldl_loadStep_filter :
    ∀ (data : List (List (List Char))) (acc : List URLInfo × Nat),
      data.foldl loadStep acc
        = (data.filter (fun row => decide (row.length ≥ 7))).foldl loadStep acc := by
  intro data
  induction data with
  | nil => intro acc; rfl
  | cons row rest ih =>
    intro acc
    by_cases h : row.length ≥ 7
    · simp only [List.foldl_cons, List.filter_cons, decide_eq_true h, if_pos]
      exact ih (loadStep acc row)
    · have hshort : row.length < 7 := Nat.not_le.mp h
      simp only [List.foldl_cons, List.filter_cons, loadStep_short acc row hshort]
      rw [decide_eq_false h]
      exact ih acc

/-- C9 counterexample: the claim states that a row with too few columns is
skipped with a warning, but `Cache.load` skips a two-column row silently: the
warning count stays zero. -/
theorem cache_load_short_row_no_warning_cex :
    Cache.loadEntries [[str "a", str "b"]] = ([], 0)
      ∧ ¬((Cache.loadEntries [[str "a", str "b"]]).2 > 0) := by
  refine ⟨by decide, by decide⟩

/-- C9 (amended): when `Cache.load` encounters a row with fewer than seven
columns it skips that row silently — no warning is emitted and loading does
not abort — and the table loads exactly as if the short rows were not there,
so every remaining well-formed row is still loaded; a table consisting only of
short rows loads as empty with zero warnings. -/
theorem cache_load_skips_short_rows (data : List (List (List Char))) :
    Cache.loadEntries data
        = Cache.loadEntries (data.filter (fun row => decide (row.length ≥ 7)))
      ∧ ((∀ r ∈ data, r.length < 7) → Cache.loadEntries data = ([], 0)) := by
  constructor
  · exact foldl_loadStep_filter data ([], 0)
  · intro hall
    have : data.filter (fun row => decide (row.length ≥ 7)) = [] := by
      rw [List.filter_eq_nil_iff]
      intro r hr
      simp [Nat.not_le.mpr (hall r hr)]
    rw [Cache.loadEntries, foldl_loadStep_filter data ([], 0), this]
    rfl

/-- C9 witness: the concrete one-short-row table loads as empty with zero
warnings, and a mixed table loads the same as the table without its short
row. -/
theorem cache_load_skips_short_rows_witness :
    Cache.loadEntries [[str "a"]] = ([], 0)
      ∧ Cache.loadEntries [[str "a"], [str "u", str "h", str "f", str "d",
          str "s", str "c", str "0", str "e"]]
        = Cache.loadEntries ([[str "a"], [str "u", str "h", str "f", str "d",
            str "s", str "c", str "0", str "e"]].filter
            (fun row => decide (row.length ≥ 7))) :=
  ⟨(cache_load_skips_short_rows [[str "a"]]).2 (by decide),
   (cache_load_skips_short_rows _).1⟩

/-! ## Claim C10: `classify_all_urls` mutates the weight dict -/

lemma lookupW_append_some {k : List Char} {m : ℚ} :
    ∀ w1 w2 : List (List Char × ℚ), lookupW w1 k = some m →
      lookupW (w1 ++ w2) k = some m := by
  intro w1 w2
  induction w1 with
  | nil => simp [lookupW]
  | cons p t ih =>
    intro h
    by_cases hp : (p.1 == k) = true
    · simp only [lookupW, List.cons_append, List.find?_cons, hp] at h ⊢
      exact h
    · rw [Bool.not_eq_true] at hp
      simp only [lookupW, List.cons_append, List.find?_cons, hp] at h ⊢
      exact ih h

lemma lookupW_append_none {k : List Char} :
    ∀ w1 w2 : List (List Char × ℚ), lookupW w1 k = none →
      lookupW (w1 ++ w2) k = lookupW w2 k := by
  intro w1 w2
  induction w1 with
  | nil => simp
  | cons p t ih =>
    intro h
    by_cases hp : (p.1 == k) = true
    · simp only [lookupW, List.find?_cons, hp] at h
      exact absurd h (by simp)
    · rw [Bool.not_eq_true] at hp
      simp only [lookupW, List.cons_append, List.find?_cons, hp] at h ⊢
      exact ih h

lemma lookupW_single_self (k : List Char) (q : ℚ) : lookupW [(k, q)] k = some q := by
  simp [lookupW, List.find?_cons]

lemma lookupW_single_other {k k' : List Char} (q : ℚ) (h : k ≠ k') :
    lookupW [(k, q)] k' = none := by
  simp [lookupW, List.find?_cons, h]

lemma extendWeights_cons (w : List (List Char × ℚ)) (d : ThemeInfo) (t : List ThemeInfo) :
    extendWeights w (d :: t)
      = extendWeights
          (if (lookupW w d.theme_name).isSome then w else w ++ [(d.theme_name, 1)]) t := rfl

lemma extendWeights_pres {k : List Char} {m : ℚ} :
    ∀ (ds : List ThemeInfo) (w : List (List Char × ℚ)), lookupW w k = some m →
      lookupW (extendWeights w ds) k = some m := by
  intro ds
  induction ds with
  | nil => intro w h; exact h
  | cons d t ih =>
    intro w h
    rw [extendWeights_cons]
    by_cases hd : (lookupW w d.theme_name).isSome
    · rw [if_pos hd]; exact ih w h
    · rw [if_neg hd]; exact ih _ (lookupW_append_some w _ h)

lemma extendWeights_step_getD (w : List (List Char × ℚ)) (d : ThemeInfo) (k : List Char) :
    (lookupW (if (lookupW w d.theme_name).isSome then w
        else w ++ [(d.theme_name, 1)]) k).getD 1
      = (lookupW w k).getD 1 := by
  by_cases hd : (lookupW w d.theme_name).isSome
  · rw [if_pos hd]
  · rw [if_neg hd]
    cases hk : lookupW w k with
    | some m => rw [lookupW_append_some w _ hk]
    | none =>
      rw [lookupW_append_none w _ hk]
      by_cases he : d.theme_name = k
      · subst he; rw [lookupW_single_self]; rfl
      · rw [lookupW_single_other 1 he]

lemma extendWeights_name {k : List Char} :
    ∀ (ds : List ThemeInfo) (w : List (List Char × ℚ)) (ti : ThemeInfo), ti ∈ ds →
      ti.theme_name = k →
      lookupW (extendWeights w ds) k = some ((lookupW w k).getD 1) := by
  intro ds
  induction ds with
  | nil => intro w ti h; exact absurd h (List.not_mem_nil ti)
  | cons d t ih =>
    intro w ti hmem hname
    rw [extendWeights_cons]
    rcases List.mem_cons.mp hmem with rfl | hmem'
    · subst hname
      cases hd : lookupW w ti.theme_name with
      | some m =>
        have hs : ((some m : Option ℚ).isSome = true) := rfl
        rw [if_pos hs, extendWeights_pres t w hd]
        rfl
      | none =>
        rw [if_neg (by simp)]
        have h1 : lookupW (w ++ [(ti.theme_name, 1)]) ti.theme_name = some 1 := by
          rw [lookupW_append_none w _ hd, lookupW_single_self]
        rw [extendWeights_pres t _ h1]
        rfl
    · rw [ih (if (lookupW w d.theme_name).isSome then w
          else w ++ [(d.theme_name, 1)]) ti hmem' hname,
        extendWeights_step_getD w d k]

lemma extendWeights_other {k : List Char} :
    ∀ (ds : List ThemeInfo) (w : List (List Char × ℚ)),
      (∀ ti ∈ ds, ti.theme_name ≠ k) →
      lookupW (extendWeights w ds) k = lookupW w k := by
  intro ds
  induction ds with
  | nil => intro w _; rfl
  | cons d t ih =>
    intro w hall
    rw [extendWeights_cons]
    have hrec := ih (if (lookupW w d.theme_name).isSome then w
      else w ++ [(d.theme_name, 1)]) (fun ti hti => hall ti (List.mem_cons_of_mem d hti))
    rw [hrec]
    by_cases hd : (lookupW w d.theme_name).isSome
    · rw [if_pos hd]
    · rw [if_neg hd]
      cases hk : lookupW w k with
      | some m => rw [lookupW_append_some w _ hk]
      | none =>
        rw [lookupW_append_none w _ hk,
          lookupW_single_other 1 (hall d (List.mem_cons_self d t))]

lemma classify_all_urls_snd (url_summaries : List (List Char × URLSummary))
    (themes_data : List ThemeInfo) (w : List (List Char × ℚ)) :
    (classify_all_urls url_summaries themes_data (some w)).2
      = extendWeights w themes_data := rfl

/-- C10: `classify_all_urls` fills the caller-supplied weight dict in place:
every binding the caller put there survives unchanged; every theme name gets a
binding — the caller's value when present, else the default `1.0`; no other
key is added; and when some theme name was absent, the dict the caller handed
in really is changed. -/
theorem classify_all_urls_mutates_weights (url_summaries : List (List Char × URLSummary))
    (themes_data : List ThemeInfo) (w : List (List Char × ℚ)) :
    (∀ k m, lookupW w k = some m →
       lookupW ((classify_all_urls url_summaries themes_data (some w)).2) k = some m) ∧
    (∀ ti ∈ themes_data,
       lookupW ((classify_all_urls url_summaries themes_data (some w)).2) ti.theme_name
         = some ((lookupW w ti.theme_name).getD 1)) ∧
    (∀ k, lookupW w k = none → (∀ ti ∈ themes_data, ti.theme_name ≠ k) →
       lookupW ((classify_all_urls url_summaries themes_data (some w)).2) k = none) ∧
    ((∃ ti ∈ themes_data, lookupW w ti.theme_name = none) →
       (classify_all_urls url_summaries themes_data (some w)).2 ≠ w) := by
  rw [classify_all_urls_snd]
  refine ⟨?_, ?_, ?_, ?_⟩
  · intro k m h
    exact extendWeights_pres themes_data w h
  · intro ti hti
    exact extendWeights_name themes_data w ti hti rfl
  · intro k hk hall
    rw [extendWeights_other themes_data w hall, hk]
  · rintro ⟨ti, hti, habs⟩ heq
    have h1 := extendWeights_name themes_data w ti hti rfl
    rw [heq, habs] at h1
    exact Option.noConfusion h1

/-- C10 witness: with caller dict `{A: 2}` and themes `A`, `B`, the final dict
keeps `A ↦ 2`, gains `B ↦ 1`, and differs from the dict handed in. -/
theorem classify_all_urls_mutates_weights_witness :
    lookupW ((classify_all_urls [] [⟨str "A", [], [], none⟩, ⟨str "B", [], [], none⟩]
          (some [(str "A", 2)])).2) (str "B")
        = some ((lookupW [(str "A", 2)] (str "B")).getD 1)
      ∧ (classify_all_urls [] [⟨str "A", [], [], none⟩, ⟨str "B", [], [], none⟩]
          (some [(str "A", 2)])).2 ≠ [(str "A", 2)] :=
  ⟨(classify_all_urls_mutates_weights [] _ _).2.1 ⟨str "B", [], [], none⟩ (by decide),
   (classify_all_urls_mutates_weights [] _ _).2.2.2
     ⟨⟨str "B", [], [], none⟩, by decide, by decide⟩⟩

/-! ## Claim C2: `classify_url_to_theme` selection -/

/-- Running maximum of the per-theme scores, starting from `a`. -/
def foldMax (sc : Theme → ℚ) (themes : List Theme) (a : ℚ) : ℚ :=
  themes.foldl (fun m t => max m (sc t)) a

/-- The best-theme fold of `classify_url_to_theme`, from an arbitrary
accumulator. -/
def bestFold (sc : Theme → ℚ) (themes : List Theme) (acc : Option (List Char) × ℚ) :
    Option (List Char) × ℚ :=
  themes.foldl
    (fun best t =>
      let theme_score := sc t
      if theme_score > best.2 then (some t.name, theme_score) else best)
    acc

lemma classify_eq_bestFold (s : URLSummary) (themes : List Theme)
    (w : Option (List (List Char × ℚ))) :
    classify_url_to_theme s themes w
      = if s.tags.isEmpty then (none, 0)
        else bestFold (weighted_score w s.tags) themes (none, 0) := rfl

lemma foldMax_cons (sc : Theme → ℚ) (t : Theme) (ts : List Theme) (a : ℚ) :
    foldMax sc (t :: ts) a = foldMax sc ts (max a (sc t)) := rfl

lemma bestFold_cons (sc : Theme → ℚ) (t : Theme) (ts : List Theme)
    (acc : Option (List Char) × ℚ) :
    bestFold sc (t :: ts) acc
      = bestFold sc ts (if sc t > acc.2 then (some t.name, sc t) else acc) := rfl

lemma le_foldMax_init (sc : Theme → ℚ) :
    ∀ (themes : List Theme) (a : ℚ), a ≤ foldMax sc themes a := by
  intro themes
  induction themes with
  | nil => intro a; exact le_refl a
  | cons t ts ih =>
    intro a
    exact le_trans (le_max_left a (sc t)) (ih (max a (sc t)))

lemma foldMax_of_all_le (sc : Theme → ℚ) :
    ∀ (themes : List Theme) (a : ℚ), (∀ t ∈ themes, sc t ≤ a) →
      foldMax sc themes a = a := by
  intro themes
  induction themes with
  | nil => intro a _; rfl
  | cons t ts ih =>
    intro a h
    rw [foldMax_cons, max_eq_left (h t (List.mem_cons_self t ts))]
    exact ih a (fun u hu => h u (List.mem_cons_of_mem t hu))

lemma sc_le_foldMax (sc : Theme → ℚ) :
    ∀ (themes : List Theme) (a : ℚ) (t : Theme), t ∈ themes →
      sc t ≤ foldMax sc themes a := by
  intro themes
  induction themes with
  | nil => intro a t h; exact absurd h (List.not_mem_nil t)
  | cons u ts ih =>
    intro a t h
    rcases List.mem_cons.mp h with rfl | h'
    · exact le_trans (le_max_right a (sc t)) (le_foldMax_init sc ts (max a (sc t)))
    · exact ih (max a (sc u)) t h'

lemma bestFold_of_all_le (sc : Theme → ℚ) :
    ∀ (themes : List Theme) (acc : Option (List Char) × ℚ),
      (∀ t ∈ themes, sc t ≤ acc.2) → bestFold sc themes acc = acc := by
  intro themes
  induction themes with
  | nil => intro acc _; rfl
  | cons t ts ih =>
    intro acc h
    rw [bestFold_cons]
    have : ¬(sc t > acc.2) := not_lt.mpr (h t (List.mem_cons_self t ts))
    rw [if_neg this]
    exact ih acc (fun u hu => h u (List.mem_cons_of_mem t hu))

lemma bestFold_char (sc : Theme → ℚ) :
    ∀ (themes : List Theme) (acc : Option (List Char) × ℚ),
      (∃ t ∈ themes, acc.2 < sc t) →
      ∃ t₀, themes.find? (fun t => decide (sc t = foldMax sc themes acc.2)) = some t₀
        ∧ bestFold sc themes acc = (some t₀.name, foldMax sc themes acc.2) := by
  intro themes
  induction themes with
  | nil => rintro acc ⟨t, ht, _⟩; exact absurd ht (List.not_mem_nil t)
  | cons t ts ih =>
    rintro acc ⟨u, hu, hlt⟩
    by_cases hs : sc t > acc.2
    · by_cases h2 : ∃ r ∈ ts, sc t < sc r
      · obtain ⟨t₀, hfind, hbf⟩ := ih (some t.name, sc t) h2
        obtain ⟨r, hr, hltr⟩ := h2
        have hM : foldMax sc (t :: ts) acc.2 = foldMax sc ts (sc t) := by
          rw [foldMax_cons, max_eq_right (le_of_lt hs)]
        have hMgt : sc t < foldMax sc ts (sc t) :=
          lt_of_lt_of_le hltr (sc_le_foldMax sc ts (sc t) r hr)
        have hne : ¬(sc t = foldMax sc (t :: ts) acc.2) := by
          rw [hM]; exact ne_of_lt hMgt
        refine ⟨t₀, ?_, ?_⟩
        · rw [hM, List.find?_cons, decide_eq_false (by rw [← hM] at *; exact hne)]
          exact hfind
        · rw [hM, bestFold_cons, if_pos hs]
          exact hbf
      · push_neg at h2
        have hall : ∀ r ∈ ts, sc r ≤ sc t := fun r hr => h2 r hr
        have hM : foldMax sc (t :: ts) acc.2 = sc t := by
          rw [foldMax_cons, max_eq_right (le_of_lt hs)]
          exact foldMax_of_all_le sc ts (sc t) hall
        refine ⟨t, ?_, ?_⟩
        · rw [List.find?_cons, decide_eq_true (by rw [hM])]
        · rw [hM, bestFold_cons, if_pos hs]
          exact bestFold_of_all_le sc ts (some t.name, sc t) hall
    · have hle : sc t ≤ acc.2 := not_lt.mp hs
      have hu' : u ∈ ts := by
        rcases List.mem_cons.mp hu with rfl | h'
        · exact absurd hlt hs
        · exact h'
      obtain ⟨t₀, hfind, hbf⟩ := ih acc ⟨u, hu', hlt⟩
      have hM : foldMax sc (t :: ts) acc.2 = foldMax sc ts acc.2 := by
        rw [foldMax_cons, max_eq_left hle]
      have hMgt : acc.2 < foldMax sc ts acc.2 :=
        lt_of_lt_of_le hlt (sc_le_foldMax sc ts acc.2 u hu')
      have hne : ¬(sc t = foldMax sc (t :: ts) acc.2) := by
        rw [hM]; exact ne_of_lt (lt_of_le_of_lt hle hMgt)
      refine ⟨t₀, ?_, ?_⟩
      · rw [hM] at hne ⊢
        rw [List.find?_cons, decide_eq_false hne]
        exact hfind
      · rw [hM, bestFold_cons, if_neg hs]
        exact hbf

/-- C2: classification of one url.  With an empty tag list the result is
unclassified with score `0`; with no theme scoring above zero the result is
unclassified with score `0`; otherwise the result is the first theme, in the
supplied order, achieving the maximum weighted score (so a strictly greatest
score wins and ties keep the earliest theme), together with that score. -/
theorem classify_url_to_theme_spec (s : URLSummary) (themes : List Theme)
    (w : Option (List (List Char × ℚ))) :
    (s.tags = [] → classify_url_to_theme s themes w = (none, 0)) ∧
    (s.tags ≠ [] → (∀ t ∈ themes, weighted_score w s.tags t ≤ 0) →
       classify_url_to_theme s themes w = (none, 0)) ∧
    (s.tags ≠ [] → ∀ t' ∈ themes, 0 < weighted_score w s.tags t' →
       ∃ t₀, themes.find? (fun t =>
             decide (weighted_score w s.tags t
               = foldMax (weighted_score w s.tags) themes 0)) = some t₀
         ∧ classify_url_to_theme s themes w
             = (some t₀.name, foldMax (weighted_score w s.tags) themes 0)
         ∧ weighted_score w s.tags t₀ = foldMax (weighted_score w s.tags) themes 0
         ∧ 0 < foldMax (weighted_score w s.tags) themes 0) := by
  refine ⟨?_, ?_, ?_⟩
  · intro h
    rw [classify_eq_bestFold, if_pos (by rw [h]; rfl)]
  · intro h hall
    rw [classify_eq_bestFold, if_neg (by simpa using h)]
    exact bestFold_of_all_le _ themes (none, 0) hall
  · intro h t' ht' hpos
    obtain ⟨t₀, hfind, hbf⟩ :=
      bestFold_char (weighted_score w s.tags) themes (none, 0) ⟨t', ht', hpos⟩
    have hfind0 : themes.find? (fun t =>
        decide (weighted_score w s.tags t
          = foldMax (weighted_score w s.tags) themes 0)) = some t₀ := hfind
    refine ⟨t₀, hfind0, ?_, ?_, ?_⟩
    · rw [classify_eq_bestFold, if_neg (by simpa using h)]
      exact hbf
    · have h2 := List.find?_some hfind0
      exact of_decide_eq_true h2
    · exact lt_of_lt_of_le hpos (sc_le_foldMax _ themes 0 t' ht')

/-- C2 witness: an empty tag list is unclassified with score `0`, and a url
whose only tag matches no theme tag (here the theme has no tags at all) is
unclassified with score `0`. -/
theorem classify_url_to_theme_spec_witness :
    classify_url_to_theme ⟨[]⟩ [⟨str "A", [str "x"]⟩] none = (none, 0)
      ∧ classify_url_to_theme ⟨[str "q"]⟩ [⟨str "A", []⟩] none = (none, 0) :=
  ⟨(classify_url_to_theme_spec ⟨[]⟩ [⟨str "A", [str "x"]⟩] none).1 rfl,
   (classify_url_to_theme_spec ⟨[str "q"]⟩ [⟨str "A", []⟩] none).2.1 (by decide)
     (by
       intro t ht
       rw [List.mem_singleton] at ht
       subst ht
       simp [weighted_score, theme_raw_score])⟩

/-! ## Claim C6: theme weights in `classify_all_urls` -/

/-- C6 counterexample: the claim states that without a caller override the
effective multiplier is the theme's own declared weight, but
`classify_all_urls` never reads a weight from the theme data: a theme carrying
declared weight `3` and raw score `1` is classified with score `1`, not
`1 * 3 = 3`. -/
theorem classify_declared_weight_ignored_cex :
    (classify_all_urls [(str "u", ⟨[str "x"]⟩)] [⟨str "A", [], [str "x"], some 3⟩]
        (some [])).1 = [(str "u", str "A", 1)]
      ∧ theme_raw_score [str "x"] [str "x"] * 3 = 3
      ∧ (1 : ℚ) ≠ 3 := by
  refine ⟨?_, ?_, by norm_num⟩
  · simp [classify_all_urls, extendWeights, lookupW, classify_url_to_theme,
      bestFold, weighted_score, theme_raw_score, calculate_tag_match_weight,
      List.find?, str]
  · simp [theme_raw_score, calculate_tag_match_weight]

/-- C6 (amended): the effective multiplier applied to a theme's raw
tag-overlap score is the caller's override value when the theme's name is
present in the supplied map, and `1.0` otherwise — a weight carried on the
theme data itself is never consulted.  Every classification produced by
`classify_all_urls` scores some listed theme as its raw score times that
multiplier; and an override raising a lower raw-scoring theme above a higher
raw-scoring one makes classification select the overridden theme (concretely:
raw scores `1` for theme `A` and `2` for theme `B` select `B` without an
override and select `A` with override `A ↦ 3`). -/
theorem classify_all_urls_weight_override (summaries : List (List Char × URLSummary))
    (themes_data : List ThemeInfo) (w : List (List Char × ℚ)) :
    (∀ url name score,
       (url, name, score) ∈ (classify_all_urls summaries themes_data (some w)).1 →
       ∃ ti ∈ themes_data, ti.theme_name = name ∧
         ∃ s : URLSummary, (url, s) ∈ summaries ∧
           score = theme_raw_score s.tags ti.tags * ((lookupW w name).getD 1))
    ∧ (classify_all_urls [(str "u", ⟨[str "x"]⟩)]
         [⟨str "A", [], [str "x"], none⟩, ⟨str "B", [], [str "x", str "x"], none⟩]
         (some [])).1 = [(str "u", str "B", 2)]
    ∧ (classify_all_urls [(str "u", ⟨[str "x"]⟩)]
         [⟨str "A", [], [str "x"], none⟩, ⟨str "B", [], [str "x", str "x"], none⟩]
         (some [(str "A", 3)])).1 = [(str "u", str "A", 3)] := by
  refine ⟨?_, ?_, ?_⟩
  · intro url name score hmem
    simp only [classify_all_urls, Option.getD_some, List.mem_filterMap] at hmem
    obtain ⟨p, hp, hf⟩ := hmem
    rcases hcl : classify_url_to_theme p.2
        (themes_data.map (fun ti => Theme.mk ti.theme_name ti.tags))
        (some (extendWeights w themes_data)) with ⟨theme?, sc⟩
    rw [hcl] at hf
    rcases theme? with _ | theme
    · exact absurd hf (by simp)
    · have hf2 : (if theme.isEmpty = true then none
          else some (p.1, theme, sc)) = some (url, name, score) := hf
      by_cases hemp : theme.isEmpty = true
      · rw [if_pos hemp] at hf2
        exact absurd hf2 (by simp)
      · rw [if_neg hemp] at hf2
        injection hf2 with hf3
        have hurl : p.1 = url := congrArg Prod.fst hf3
        have hname2 : theme = name := congrArg (fun q => q.2.1) hf3
        have hsc2 : sc = score := congrArg (fun q => q.2.2) hf3
        subst hurl
        subst hname2
        subst hsc2
        -- analyse the classification result
        rw [classify_eq_bestFold] at hcl
        by_cases htags : p.2.tags.isEmpty
        · rw [if_pos htags] at hcl
          exact absurd (congrArg Prod.fst hcl) (by simp)
        · rw [if_neg htags] at hcl
          set sc' := weighted_score (some (extendWeights w themes_data)) p.2.tags
          set themes := themes_data.map (fun ti => Theme.mk ti.theme_name ti.tags)
          by_cases hall : ∀ t ∈ themes, sc' t ≤ 0
          · rw [bestFold_of_all_le sc' themes (none, 0) hall] at hcl
            exact absurd (congrArg Prod.fst hcl) (by simp)
          · push_neg at hall
            obtain ⟨t1, ht1, hpos⟩ := hall
            obtain ⟨t₀, hfind, hbf⟩ := bestFold_char sc' themes (none, 0) ⟨t1, ht1, hpos⟩
            rw [hbf] at hcl
            have hname : t₀.name = theme := by
              have := congrArg Prod.fst hcl
              simpa using this
            have hsc : foldMax sc' themes (none, 0).2 = sc := congrArg Prod.snd hcl
            have ht₀mem : t₀ ∈ themes := List.mem_of_find?_eq_some hfind
            have hfs := List.find?_some hfind
            have hsct₀ : sc' t₀ = foldMax sc' themes (none, 0).2 :=
              of_decide_eq_true hfs
            obtain ⟨ti, hti, hteq⟩ := List.mem_map.mp ht₀mem
            refine ⟨ti, hti, ?_, p.2, ?_, ?_⟩
            · rw [← hname, ← hteq]
            · rcases p with ⟨u, s⟩; exact hp
            · have hnm : ti.theme_name = t₀.name := by rw [← hteq]
              have hw2 : lookupW (extendWeights w themes_data) t₀.name
                  = some ((lookupW w t₀.name).getD 1) :=
                extendWeights_name themes_data w ti hti hnm
              have hws : sc' t₀ = theme_raw_score p.2.tags t₀.tags
                  * ((lookupW w t₀.name).getD 1) := by
                show weighted_score (some (extendWeights w themes_data)) p.2.tags t₀ = _
                simp only [weighted_score, hw2]
              have htags2 : t₀.tags = ti.tags := by rw [← hteq]
              rw [← hsc, ← hsct₀, hws, htags2, hname]
  · have hw0 : extendWeights []
        [⟨str "A", [], [str "x"], none⟩, ⟨str "B", [], [str "x", str "x"], none⟩]
        = [(str "A", 1), (str "B", 1)] := rfl
    have hA : lookupW [(str "A", (1:ℚ)), (str "B", 1)] (str "A") = some 1 := rfl
    have hB : lookupW [(str "A", (1:ℚ)), (str "B", 1)] (str "B") = some 1 := rfl
    have hrawA : theme_raw_score [str "x"] [str "x"] = 1 := by
      norm_num [theme_raw_score, calculate_tag_match_weight]
    have hrawB : theme_raw_score [str "x"] [str "x", str "x"] = 2 := by
      norm_num [theme_raw_score, calculate_tag_match_weight]
    have hcls : classify_url_to_theme ⟨[str "x"]⟩
        [⟨str "A", [str "x"]⟩, ⟨str "B", [str "x", str "x"]⟩]
        (some [(str "A", (1:ℚ)), (str "B", 1)]) = (some (str "B"), 2) := by
      rw [classify_eq_bestFold]
      norm_num [bestFold, weighted_score, hA, hB, hrawA, hrawB]
    simp [classify_all_urls, Option.getD_some, hw0, hcls, List.filterMap_cons,
      List.filterMap_nil]
    rw [if_neg (by decide : ¬(str "B" = []))]
  · have hw0 : extendWeights [(str "A", (3:ℚ))]
        [⟨str "A", [], [str "x"], none⟩, ⟨str "B", [], [str "x", str "x"], none⟩]
        = [(str "A", 3), (str "B", 1)] := rfl
    have hA : lookupW [(str "A", (3:ℚ)), (str "B", 1)] (str "A") = some 3 := rfl
    have hB : lookupW [(str "A", (3:ℚ)), (str "B", 1)] (str "B") = some 1 := rfl
    have hrawA : theme_raw_score [str "x"] [str "x"] = 1 := by
      norm_num [theme_raw_score, calculate_tag_match_weight]
    have hrawB : theme_raw_score [str "x"] [str "x", str "x"] = 2 := by
      norm_num [theme_raw_score, calculate_tag_match_weight]
    have hcls : classify_url_to_theme ⟨[str "x"]⟩
        [⟨str "A", [str "x"]⟩, ⟨str "B", [str "x", str "x"]⟩]
        (some [(str "A", (3:ℚ)), (str "B", 1)]) = (some (str "A"), 3) := by
      rw [classify_eq_bestFold]
      norm_num [bestFold, weighted_score, hA, hB, hrawA, hrawB]
    simp [classify_all_urls, Option.getD_some, hw0, hcls, List.filterMap_cons,
      List.filterMap_nil]
    rw [if_neg (by decide : ¬(str "A" = []))]

/-- C6 witness: the classification `(u, B, 2)` produced with the empty
override map scores theme `B` as its raw score `2` times the default
multiplier `1`. -/
theorem classify_all_urls_weight_override_witness :
    (2 : ℚ) = theme_raw_score [str "x"] [str "x", str "x"]
        * ((lookupW [] (str "B")).getD 1) := by
  obtain ⟨ti, hti, hname, s, hs, hscore⟩ :=
    (classify_all_urls_weight_override [(str "u", ⟨[str "x"]⟩)]
        [⟨str "A", [], [str "x"], none⟩, ⟨str "B", [], [str "x", str "x"], none⟩]
        []).1 (str "u") (str "B") 2
      (by rw [(classify_all_urls_weight_override [] [] []).2.1]; simp)
  rcases List.mem_cons.mp hti with rfl | hti2
  · exact absurd hname (by decide)
  · have heq := List.mem_singleton.mp hti2
    subst heq
    have hseq : s = ⟨[str "x"]⟩ :=
      congrArg Prod.snd (List.mem_singleton.mp hs)
    subst hseq
    exact hscore

/-! ## Claim C5: the idempotent skip of `fetch_and_cache_url` -/

lemma lookupEntry_url {entries : List URLInfo} {url : List Char} {e : URLInfo}
    (h : lookupEntry entries url = some e) : e.url = url := by
  have := List.find?_some h
  exact eq_of_beq this

lemma lookup_map_upsert : ∀ (entries : List URLInfo) (v : URLInfo),
    entries.any (fun e => e.url == v.url) = true →
    lookupEntry (entries.map (fun e => if e.url == v.url then v else e)) v.url
      = some v := by
  intro entries v
  induction entries with
  | nil => intro h; simp at h
  | cons e t ih =>
    intro h
    rw [List.map_cons, lookupEntry, List.find?_cons]
    by_cases he : (e.url == v.url) = true
    · rw [if_pos he]
      simp
    · rw [Bool.not_eq_true] at he
      rw [if_neg (by rw [he]; exact Bool.false_ne_true)]
      simp only [he]
      rw [List.any_cons, he, Bool.false_or] at h
      exact ih h

lemma lookup_append_single : ∀ (entries : List URLInfo) (v : URLInfo),
    entries.any (fun e => e.url == v.url) = false →
    lookupEntry (entries ++ [v]) v.url = some v := by
  intro entries v
  induction entries with
  | nil =>
    intro _
    simp [lookupEntry, List.find?_cons]
  | cons e t ih =>
    intro h
    rw [List.any_cons, Bool.or_eq_false_iff] at h
    rw [List.cons_append, lookupEntry, List.find?_cons]
    simp only [h.1]
    exact ih h.2

lemma lookupEntry_upsert_self (entries : List URLInfo) (v : URLInfo) :
    lookupEntry (upsertEntry entries v) v.url = some v := by
  by_cases hany : entries.any (fun e => e.url == v.url) = true
  · rw [upsertEntry, if_pos hany]
    exact lookup_map_upsert entries v hany
  · rw [Bool.not_eq_true] at hany
    rw [upsertEntry, if_neg (by rw [hany]; exact Bool.false_ne_true)]
    exact lookup_append_single entries v hany

lemma guess_extension_ne_nil {ct e : List Char} (h : guess_extension ct = some e) :
    e ≠ [] := by
  rw [guess_extension] at h
  split_ifs at h
  all_goals
    first
      | exact Option.noConfusion h
      | (injection h with h; rw [← h]; decide)

lemma find_available_filename_ne_nil (files : List (List Char)) (cacheDir : List Char)
    (u : URLInfo) : find_available_filename files cacheDir u ≠ [] := by
  rw [find_available_filename]
  generalize hext : (match (if u.content_type.isEmpty then none
      else guess_extension u.content_type) with
      | some e => e | none => str ".html") = ext
  have hextne : ext ≠ [] := by
    rcases hg : (if u.content_type.isEmpty then none
        else guess_extension u.content_type) with _ | e
    · rw [hg] at hext
      rw [← hext]
      decide
    · rw [hg] at hext
      rw [← hext]
      show e ≠ []
      by_cases hemp : u.content_type.isEmpty = true
      · rw [if_pos hemp] at hg
        exact absurd hg (by simp)
      · rw [if_neg hemp] at hg
        exact guess_extension_ne_nil hg
  by_cases hfree : (!(files.contains (pathJoin (content_dir cacheDir)
      (u.hash ++ ext)))) = true
  · rw [if_pos hfree]
    intro hc
    exact hextne (List.append_eq_nil.mp hc).2
  · rw [if_neg hfree]
    rcases hf : ((List.range (files.length + 1)).map
        (fun i => u.hash ++ '-' :: natRepr (i + 1) ++ ext)).find?
        (fun f => !(files.contains (pathJoin (content_dir cacheDir) f))) with _ | f
    · rw [Option.getD_none]
      intro hc
      exact hextne (List.append_eq_nil.mp hc).2
    · rw [Option.getD_some]
      obtain ⟨i, _, hi⟩ := List.mem_map.mp (List.mem_of_find?_eq_some hf)
      rw [← hi]
      intro hc
      exact hextne (List.append_eq_nil.mp hc).2

lemma fetch_skip (cacheDir : List Char) (st : CacheState) (url : List Char)
    (ui : URLInfo) (now : List Char)
    (fr : Except (List Char) (List Char × List Char))
    (h1 : lookupEntry st.entries url = some ui) (h2 : ui.status = str "success")
    (h3 : ui.filename ≠ [])
    (h4 : st.files.contains (get_content_path cacheDir ui) = true) :
    fetch_and_cache_url cacheDir st url now fr = ⟨⟨true, ui, false⟩, st, false, false⟩ := by
  have h3' : ¬ui.filename.isEmpty = true := by simpa [List.isEmpty_iff] using h3
  simp only [fetch_and_cache_url, h1]
  rw [if_pos ⟨h2, h3', h4⟩]

/-- C5: when the cached record of a url has status `success`, a nonempty
filename and its content file present on disk, `fetch_and_cache_url` returns
immediately with `success = true` and `downloaded = false`, without fetching,
without touching the entry map or the content directory, and without saving
the table; consequently a second call after any successful download — whose
state still holds the written file — performs no fetch and no write. -/
theorem fetch_and_cache_idempotent (cacheDir : List Char) (st : CacheState)
    (url : List Char) (ui : URLInfo) (now : List Char)
    (fr : Except (List Char) (List Char × List Char)) :
    (lookupEntry st.entries url = some ui → ui.status = str "success" →
       ui.filename ≠ [] →
       st.files.contains (get_content_path cacheDir ui) = true →
       fetch_and_cache_url cacheDir st url now fr
         = ⟨⟨true, ui, false⟩, st, false, false⟩) ∧
    (∀ now' fr',
       (fetch_and_cache_url cacheDir st url now fr).result.downloaded = true →
       fetch_and_cache_url cacheDir (fetch_and_cache_url cacheDir st url now fr).state
           url now' fr'
         = ⟨⟨true, (fetch_and_cache_url cacheDir st url now fr).result.url_info, false⟩,
            (fetch_and_cache_url cacheDir st url now fr).state, false, false⟩) := by
  constructor
  · intro h1 h2 h3 h4
    exact fetch_skip cacheDir st url ui now fr h1 h2 h3 h4
  · intro now' fr' hdl
    -- identify the record the first call passed to the fetch attempt
    have hbody : ∃ u0 : URLInfo, u0.url = url ∧
        fetch_and_cache_url cacheDir st url now fr = fetchBody cacheDir st u0 now fr := by
      rcases hl : lookupEntry st.entries url with _ | ui0
      · exact ⟨URLInfo.make url [] [] [] [] 0 [], rfl, by simp only [fetch_and_cache_url, hl]⟩
      · by_cases hcond : ui0.status = str "success" ∧ ¬ui0.filename.isEmpty
            ∧ st.files.contains (get_content_path cacheDir ui0) = true
        · exfalso
          have := fetch_skip cacheDir st url ui0 now fr hl hcond.1
            (by
              intro hnil
              have := hcond.2.1
              rw [hnil] at this
              exact this rfl) hcond.2.2
          rw [this] at hdl
          exact Bool.false_ne_true hdl
        · refine ⟨ui0, lookupEntry_url hl, ?_⟩
          simp only [fetch_and_cache_url, hl]
          rw [if_neg hcond]
    obtain ⟨u0, hu0, hF⟩ := hbody
    rw [hF] at hdl ⊢
    rcases fr with msg | ⟨content, fetchedCT⟩
    · exact absurd hdl (by simp [fetchBody])
    · simp only [fetchBody] at hdl ⊢
      set sr := successRecord cacheDir st.files u0 now fetchedCT content with hsr
      have hsrurl : sr.url = url := by rw [hsr]; exact hu0
      apply fetch_skip
      · have := lookupEntry_upsert_self st.entries sr
        rw [hsrurl] at this
        exact this
      · rfl
      · show find_available_filename st.files cacheDir _ ≠ []
        exact find_available_filename_ne_nil st.files cacheDir _
      · simp [List.contains_cons]

/-- C5 witness: with a concrete success record whose content file is present,
the call returns that record, not downloaded, with the state untouched — even
though the supplied fetch outcome is a failure, showing no fetch happened. -/
theorem fetch_and_cache_idempotent_witness :
    fetch_and_cache_url (str "cache")
        ⟨[URLInfo.make (str "http://e/a") (str "h.html") (str "d") (str "success")
            (str "text/html") 5 []],
          [get_content_path (str "cache")
            (URLInfo.make (str "http://e/a") (str "h.html") (str "d") (str "success")
              (str "text/html") 5 [])]⟩
        (str "http://e/a") (str "now") (.error (str "boom"))
      = ⟨⟨true, URLInfo.make (str "http://e/a") (str "h.html") (str "d") (str "success")
            (str "text/html") 5 [], false⟩,
          ⟨[URLInfo.make (str "http://e/a") (str "h.html") (str "d") (str "success")
            (str "text/html") 5 []],
          [get_content_path (str "cache")
            (URLInfo.make (str "http://e/a") (str "h.html") (str "d") (str "success")
              (str "text/html") 5 [])]⟩, false, false⟩ :=
  (fetch_and_cache_idempotent (str "cache") _ (str "http://e/a") _ (str "now")
      (.error (str "boom"))).1 (by decide) (by decide) (by decide) (by decide)

/-! ## Claim C7: field sanitization -/

/-- The replacement the claim describes: each tab, CR or LF character of the
field individually becomes one space. -/
def eachRawCharSpaced (v : List Char) : List Char :=
  v.map (fun c => if c = '\t' ∨ c = '\r' ∨ c = '\n' then ' ' else c)

lemma mem_replaceChar {c a b : Char} {s : List Char} (h : c ∈ replaceChar a b s) :
    c = b ∨ (c ∈ s ∧ c ≠ a) := by
  rw [replaceChar, List.mem_map] at h
  obtain ⟨d, hd, hf⟩ := h
  by_cases hda : d = a
  · rw [if_pos hda] at hf
    exact Or.inl hf.symm
  · rw [if_neg hda] at hf
    exact Or.inr ⟨hf ▸ hd, hf ▸ hda⟩

lemma replaceChar_of_not_mem {a b : Char} {s : List Char} (h : ∀ c ∈ s, c ≠ a) :
    replaceChar a b s = s := by
  rw [replaceChar]
  have : ∀ c ∈ s, (if c = a then b else c) = id c := by
    intro c hc
    rw [if_neg (h c hc)]
    rfl
  rw [List.map_congr_left this, List.map_id]

lemma replaceCRLF_of_no_cr : ∀ (s : List Char), (∀ c ∈ s, c ≠ '\r') →
    replaceCRLF s = s := by
  intro s
  induction s with
  | nil => intro _; rfl
  | cons c0 rest ih =>
    intro h
    rw [replaceCRLF.eq_def]
    split
    · rename_i rest2 heq
      injection heq with h1 _
      exact absurd h1 (h c0 (List.mem_cons_self c0 rest))
    · rename_i a c1 rest1 hnm heq
      injection heq with h1 h2
      subst h1
      subst h2
      rw [ih (fun c hc => h c (List.mem_cons_of_mem c0 hc))]
    · rename_i a heq
      exact absurd heq (by simp)

/-- C7 counterexample: the claim states each raw tab, CR or LF inside a field
is replaced by a single space, but `sanitize_tsv_field` collapses a CRLF pair
into one space: on `"a\r\nb"` it produces `"a b"`, not the per-character
result `"a  b"`. -/
theorem sanitize_crlf_pair_cex :
    sanitize_tsv_field (str "a\r\nb") = str "a b"
      ∧ eachRawCharSpaced (str "a\r\nb") = str "a  b"
      ∧ str "a b" ≠ str "a  b" :=
  ⟨by decide, by decide, by decide⟩

/-- C7 (amended): every field written through `save()` is sanitized so that no
persisted row contains a raw tab, CR or LF inside field content: in the
general field path a tab or LF becomes a single space while a CRLF pair
collapses to one space (each character is replaced by a single space whenever
the field contains no CR), and in the record error-field path CRs are deleted
outright; a field containing `"a\tb\nc"` persists through a cache save and
reloads as `"a b c"`. -/
theorem sanitize_spec :
    (∀ (v : List Char), ∀ c ∈ sanitize_tsv_field v,
       c ≠ '\t' ∧ c ≠ '\r' ∧ c ≠ '\n') ∧
    (∀ (v : List Char), ∀ c ∈ sanitize_error v,
       c ≠ '\t' ∧ c ≠ '\r' ∧ c ≠ '\n') ∧
    (∀ (v : List Char), (∀ c ∈ v, c ≠ '\r') →
       sanitize_tsv_field v = eachRawCharSpaced v) ∧
    ((Cache.loadFromFile (some (Cache.saveFile
        [URLInfo.make (str "http://e/a") (str "f.html") (str "d") (str "error")
          (str "text/html") 0 (str "a\tb\nc")]))).1.map URLInfo.error
      = [str "a b c"]) := by
  refine ⟨?_, ?_, ?_, by decide⟩
  · intro v c hc
    rw [sanitize_tsv_field] at hc
    rcases mem_replaceChar hc with rfl | ⟨hc2, ht⟩
    · exact ⟨by decide, by decide, by decide⟩
    · rcases mem_replaceChar hc2 with rfl | ⟨hc3, hn⟩
      · exact ⟨by decide, by decide, by decide⟩
      · rcases mem_replaceChar hc3 with rfl | ⟨_, hr⟩
        · exact ⟨by decide, by decide, by decide⟩
        · exact ⟨ht, hr, hn⟩
  · intro v c hc
    rw [sanitize_error, removeChar, List.mem_filter] at hc
    obtain ⟨hc1, hr⟩ := hc
    have hr' : c ≠ '\r' := by simpa using hr
    rcases mem_replaceChar hc1 with rfl | ⟨hc2, hn⟩
    · exact ⟨by decide, by decide, by decide⟩
    · rcases mem_replaceChar hc2 with rfl | ⟨_, ht⟩
      · exact ⟨by decide, by decide, by decide⟩
      · exact ⟨ht, hr', hn⟩
  · intro v hv
    rw [sanitize_tsv_field, replaceCRLF_of_no_cr v hv, replaceChar_of_not_mem hv,
      eachRawCharSpaced, replaceChar, replaceChar, List.map_map]
    apply List.map_congr_left
    intro c hc
    by_cases hn : c = '\n'
    · subst hn
      simp
    · by_cases ht : c = '\t'
      · subst ht
        simp
      · simp [hn, ht, hv c hc]

/-- C7 witness: the no-raw-character guarantee at the sanitized tab field, and
the per-character description on a CR-free field. -/
theorem sanitize_spec_witness :
    (' ' ≠ '\t' ∧ ' ' ≠ '\r' ∧ ' ' ≠ '\n')
      ∧ sanitize_tsv_field (str "x\ty") = eachRawCharSpaced (str "x\ty") :=
  ⟨sanitize_spec.1 (str "\t") ' ' (by decide),
   sanitize_spec.2.2.1 (str "x\ty") (by decide)⟩

/-! ## Claim C4: save/load round trip -/

/-- A field that contains none of the TSV structural characters. -/
def goodField (v : List Char) : Prop := ∀ c ∈ v, c ≠ '\t' ∧ c ≠ '\n' ∧ c ≠ '\r'

instance (v : List Char) : Decidable (goodField v) :=
  List.decidableBAll _ v

/-- The claim's validity conditions on a record, together with the derived-field
consistency every record built by the code has: `hash` and `domain` are the
values `__post_init__` derives. -/
def ValidEntry (u : URLInfo) : Prop :=
  goodField u.url ∧ goodField u.filename ∧ goodField u.fetch_date ∧ goodField u.status ∧
  goodField u.content_type ∧ goodField u.error ∧ 0 ≤ u.size ∧
  u.hash = md5_hexdigest u.url ∧
  u.domain = (if u.url.isEmpty then [] else urlparse_netloc u.url)

/-- The additional conditions the counterexample forces: the stripping of each
stored line must not eat into the first or last field, so the url is nonempty
and starts with no whitespace character, and the error ends with no whitespace
character. -/
def EdgeClean (u : URLInfo) : Prop :=
  u.url ≠ [] ∧ (∀ c, u.url.head? = some c → isPyWS c = false) ∧
  (∀ c, u.error.getLast? = some c → isPyWS c = false)

/-- The eight column values of a record's TSV row, before any escaping. -/
def rawFields (u : URLInfo) : List (List Char) :=
  [u.url, u.hash, u.filename, u.fetch_date, u.status, u.content_type,
   intRepr u.size, u.error]

lemma getD_mem_or (l : List Char) : ∀ (n : Nat) (d : Char), l.getD n d = d ∨ l.getD n d ∈ l := by
  induction l with
  | nil => intro n d; left; cases n <;> rfl
  | cons c t ih =>
    intro n d
    cases n with
    | zero => right; exact List.mem_cons_self c t
    | succ n =>
      rcases ih n d with h | h
      · left; exact h
      · right; exact List.mem_cons_of_mem c h

lemma digitChar_mem (n : Nat) : digitChar n ∈ str "0123456789" := by
  rcases getD_mem_or "0123456789".data n '9' with h | h
  · rw [digitChar, h]; decide
  · exact h

lemma hexDigit_mem (n : Nat) : hexDigit n ∈ str "0123456789abcdef" := by
  rcases getD_mem_or "0123456789abcdef".data n 'f' with h | h
  · rw [hexDigit, h]; decide
  · exact h

lemma natReprAux_mem : ∀ (fuel n : Nat), ∀ c ∈ natReprAux fuel n, c ∈ str "0123456789" := by
  intro fuel
  induction fuel with
  | zero => intro n c hc; exact absurd hc (List.not_mem_nil c)
  | succ fuel ih =>
    intro n c hc
    rw [natReprAux] at hc
    by_cases h : n < 10
    · rw [if_pos h] at hc
      rw [List.mem_singleton] at hc
      rw [hc]; exact digitChar_mem n
    · rw [if_neg h] at hc
      rcases List.mem_append.mp hc with h' | h'
      · exact ih (n / 10) c h'
      · rw [List.mem_singleton] at h'
        rw [h']; exact digitChar_mem (n % 10)

lemma natRepr_mem (n : Nat) : ∀ c ∈ natRepr n, c ∈ str "0123456789" :=
  natReprAux_mem (n + 1) n

lemma hexReprAux_mem : ∀ (fuel n : Nat), ∀ c ∈ hexReprAux fuel n, c ∈ str "0123456789abcdef" := by
  intro fuel
  induction fuel with
  | zero => intro n c hc; exact absurd hc (List.not_mem_nil c)
  | succ fuel ih =>
    intro n c hc
    rw [hexReprAux] at hc
    by_cases h : n < 16
    · rw [if_pos h] at hc
      rw [List.mem_singleton] at hc
      rw [hc]; exact hexDigit_mem n
    · rw [if_neg h] at hc
      rcases List.mem_append.mp hc with h' | h'
      · exact ih (n / 16) c h'
      · rw [List.mem_singleton] at h'
        rw [h']; exact hexDigit_mem (n % 16)

lemma md5_hexdigest_mem (s : List Char) :
    ∀ c ∈ md5_hexdigest s, c ∈ str "0123456789abcdef" := by
  intro c hc
  rw [md5_hexdigest, hexPad] at hc
  rcases List.mem_append.mp hc with h | h
  · rw [List.eq_of_mem_replicate h]; decide
  · exact hexReprAux_mem _ _ c h

lemma natRepr_ne_nil (n : Nat) : natRepr n ≠ [] := by
  rw [natRepr, natReprAux]
  by_cases h : n < 10
  · rw [if_pos h]; exact List.noConfusion
  · rw [if_neg h]
    intro hc
    exact List.noConfusion (List.append_eq_nil.mp hc).2

lemma charDigitVal_digitChar {n : Nat} (h : n < 10) : charDigitVal (digitChar n) = n := by
  interval_cases n <;> rfl

lemma digitsToNat_append_single (xs : List Char) (c : Char) :
    digitsToNat (xs ++ [c]) = digitsToNat xs * 10 + charDigitVal c := by
  rw [digitsToNat, List.foldl_append]
  rfl

lemma digitsToNat_natReprAux : ∀ (fuel n : Nat), n < fuel →
    digitsToNat (natReprAux fuel n) = n := by
  intro fuel
  induction fuel with
  | zero => intro n h; exact absurd h (Nat.not_lt_zero n)
  | succ fuel ih =>
    intro n h
    rw [natReprAux]
    by_cases h10 : n < 10
    · rw [if_pos h10]
      show digitsToNat ([] ++ [digitChar n]) = n
      rw [digitsToNat_append_single, charDigitVal_digitChar h10]
      simp [digitsToNat]
    · rw [if_neg h10]
      rw [digitsToNat_append_single, charDigitVal_digitChar (Nat.mod_lt n (by omega))]
      have hd : n / 10 < fuel := by
        have h1 : n / 10 < n := Nat.div_lt_self (by omega) (by omega)
        omega
      rw [ih (n / 10) hd]
      omega

lemma digitsToNat_natRepr (n : Nat) : digitsToNat (natRepr n) = n :=
  digitsToNat_natReprAux (n + 1) n (Nat.lt_succ_self n)

lemma natRepr_isDigit (n : Nat) : pyIsDigit (natRepr n) = true := by
  rw [pyIsDigit, Bool.and_eq_true]
  constructor
  · rw [Bool.not_eq_true']
    rw [List.isEmpty_eq_false_iff_exists_mem]
    rcases hr : natRepr n with _ | ⟨c, t⟩
    · exact absurd hr (natRepr_ne_nil n)
    · exact ⟨c, List.mem_cons_self c t⟩
  · rw [List.all_eq_true]
    intro c hc
    have hall : ∀ c ∈ str "0123456789", c.isDigit = true := by decide
    exact hall c (natRepr_mem n c hc)

lemma goodField_natRepr (n : Nat) : goodField (natRepr n) := by
  intro c hc
  have hall : ∀ c ∈ str "0123456789", c ≠ '\t' ∧ c ≠ '\n' ∧ c ≠ '\r' := by decide
  exact hall c (natRepr_mem n c hc)

lemma goodField_md5 (s : List Char) : goodField (md5_hexdigest s) := by
  intro c hc
  have hall : ∀ c ∈ str "0123456789abcdef", c ≠ '\t' ∧ c ≠ '\n' ∧ c ≠ '\r' := by decide
  exact hall c (md5_hexdigest_mem s c hc)

lemma sanitize_tsv_field_id {v : List Char} (h : goodField v) : sanitize_tsv_field v = v := by
  rw [sanitize_tsv_field, replaceCRLF_of_no_cr v (fun c hc => (h c hc).2.2),
    replaceChar_of_not_mem (fun c hc => (h c hc).2.2),
    replaceChar_of_not_mem (fun c hc => (h c hc).2.1),
    replaceChar_of_not_mem (fun c hc => (h c hc).1)]

lemma sanitize_error_id {v : List Char} (h : goodField v) : sanitize_error v = v := by
  rw [sanitize_error, replaceChar_of_not_mem (fun c hc => (h c hc).1),
    replaceChar_of_not_mem (fun c hc => (h c hc).2.1), removeChar]
  rw [List.filter_eq_self]
  intro c hc
  simp [(h c hc).2.2]

lemma splitOnChar_no_sep {sep : Char} : ∀ (f : List Char), (∀ c ∈ f, c ≠ sep) →
    splitOnChar sep f = [f] := by
  intro f
  induction f with
  | nil => intro _; rfl
  | cons c t ih =>
    intro h
    rw [splitOnChar, if_neg (h c (List.mem_cons_self c t)),
      ih (fun d hd => h d (List.mem_cons_of_mem c hd))]

lemma splitOnChar_append {sep : Char} : ∀ (f rest : List Char), (∀ c ∈ f, c ≠ sep) →
    splitOnChar sep (f ++ sep :: rest) = f :: splitOnChar sep rest := by
  intro f rest
  induction f with
  | nil => intro _; rw [List.nil_append, splitOnChar, if_pos rfl]
  | cons c t ih =>
    intro h
    rw [List.cons_append, splitOnChar, if_neg (h c (List.mem_cons_self c t)),
      ih (fun d hd => h d (List.mem_cons_of_mem c hd))]

lemma joinTab_cons_of_ne_nil (f : List Char) (rest : List (List Char)) (h : rest ≠ []) :
    joinTab (f :: rest) = f ++ '\t' :: joinTab rest := by
  cases rest with
  | nil => exact absurd rfl h
  | cons g rest2 => rfl

lemma splitTab_joinTab : ∀ (fields : List (List Char)), fields ≠ [] →
    (∀ f ∈ fields, ∀ c ∈ f, c ≠ '\t') → splitTab (joinTab fields) = fields := by
  intro fields
  induction fields with
  | nil => intro h; exact absurd rfl h
  | cons f rest ih =>
    intro _ h
    cases rest with
    | nil => exact splitOnChar_no_sep f (h f (List.mem_cons_self f []))
    | cons g rest2 =>
      rw [joinTab_cons_of_ne_nil f _ (by exact List.noConfusion), splitTab,
        splitOnChar_append f _ (h f (List.mem_cons_self f (g :: rest2)))]
      rw [show splitOnChar '\t' (joinTab (g :: rest2)) = splitTab (joinTab (g :: rest2)) from rfl,
        ih (by exact List.noConfusion) (fun x hx c hc => h x (List.mem_cons_of_mem f hx) c hc)]

lemma joinTab_ne_nil_snoc : ∀ (fs : List (List Char)) (e : List Char), e ≠ [] →
    joinTab (fs ++ [e]) ≠ [] := by
  intro fs e he
  cases fs with
  | nil => exact he
  | cons f fs2 =>
    rw [List.cons_append, joinTab_cons_of_ne_nil f _ (by simp)]
    intro hc
    exact List.noConfusion (List.append_eq_nil.mp hc).2

lemma joinTab_head? : ∀ (f0 : List Char) (rest : List (List Char)), f0 ≠ [] →
    (joinTab (f0 :: rest)).head? = f0.head? := by
  intro f0 rest h0
  cases rest with
  | nil => rfl
  | cons g rest2 =>
    rw [joinTab_cons_of_ne_nil f0 _ (by exact List.noConfusion)]
    exact List.head?_append_of_ne_nil f0 h0

lemma joinTab_getLast? : ∀ (fs : List (List Char)) (e : List Char), e ≠ [] →
    (joinTab (fs ++ [e])).getLast? = e.getLast? := by
  intro fs
  induction fs with
  | nil => intro e _; rfl
  | cons f fs2 ih =>
    intro e he
    rw [List.cons_append, joinTab_cons_of_ne_nil f _ (by simp)]
    rw [show (f ++ '\t' :: joinTab (fs2 ++ [e]))
        = f ++ ['\t'] ++ joinTab (fs2 ++ [e]) by simp]
    rw [List.getLast?_append_of_ne_nil _ (joinTab_ne_nil_snoc fs2 e he)]
    exact ih e he

lemma joinTab_snoc_nil : ∀ (fs : List (List Char)), fs ≠ [] →
    joinTab (fs ++ [[]]) = joinTab fs ++ ['\t'] := by
  intro fs
  induction fs with
  | nil => intro h; exact absurd rfl h
  | cons f fs2 ih =>
    intro _
    cases fs2 with
    | nil => rfl
    | cons g rest =>
      rw [List.cons_append, joinTab_cons_of_ne_nil f _ (by simp),
        joinTab_cons_of_ne_nil f _ (by exact List.noConfusion),
        ih (by exact List.noConfusion)]
      simp

lemma mem_joinTab : ∀ (fields : List (List Char)) (c : Char), c ∈ joinTab fields →
    c = '\t' ∨ ∃ f ∈ fields, c ∈ f := by
  intro fields
  induction fields with
  | nil => intro c hc; exact absurd hc (List.not_mem_nil c)
  | cons f rest ih =>
    intro c hc
    cases rest with
    | nil => exact Or.inr ⟨f, List.mem_cons_self f [], hc⟩
    | cons g rest' =>
      rw [joinTab_cons_of_ne_nil f _ (by exact List.noConfusion)] at hc
      rcases List.mem_append.mp hc with h | h
      · exact Or.inr ⟨f, List.mem_cons_self f _, h⟩
      · rcases List.mem_cons.mp h with rfl | h'
        · exact Or.inl rfl
        · rcases ih c h' with h'' | ⟨x, hx, hcx⟩
          · exact Or.inl h''
          · exact Or.inr ⟨x, List.mem_cons_of_mem f hx, hcx⟩

lemma pyStrip_id : ∀ (l : List Char),
    (∀ c, l.head? = some c → isPyWS c = false) →
    (∀ c, l.getLast? = some c → isPyWS c = false) →
    pyStrip l = l := by
  intro l hh hl
  cases l with
  | nil => rfl
  | cons c t =>
    have hc : isPyWS c = false := hh c rfl
    rw [pyStrip, List.dropWhile_cons, hc]
    simp only [Bool.false_eq_true, if_false]
    rcases hrev : (c :: t).reverse with _ | ⟨d, r⟩
    · exact absurd hrev (by simp)
    · have hd : isPyWS d = false := by
        apply hl
        rw [← List.head?_reverse, hrev]
        rfl
      rw [List.dropWhile_cons, hd]
      simp only [Bool.false_eq_true, if_false]
      rw [← hrev, List.reverse_reverse]

lemma pyStrip_ne_nil {l : List Char} {c0 : Char} (h0 : l.head? = some c0)
    (hws : isPyWS c0 = false) : pyStrip l ≠ [] := by
  cases l with
  | nil => exact absurd h0 (by simp)
  | cons c t =>
    have hc : c = c0 := by injection h0
    subst hc
    rw [pyStrip, List.dropWhile_cons, hws]
    simp only [Bool.false_eq_true, if_false]
    intro hcon
    rw [List.reverse_eq_nil_iff, List.dropWhile_eq_nil_iff] at hcon
    have := hcon c (by simp)
    rw [hws] at this
    exact Bool.false_ne_true this

lemma pyStrip_concat_ws (l : List Char) (a : Char) (ha : isPyWS a = true)
    (hl : ∀ c, l.head? = some c → isPyWS c = false) :
    pyStrip (l ++ [a]) = pyStrip l := by
  cases l with
  | nil =>
    rw [List.nil_append, pyStrip, pyStrip, List.dropWhile_cons, ha]
    rfl
  | cons c t =>
    have hc : isPyWS c = false := hl c rfl
    rw [pyStrip, pyStrip, List.cons_append, List.dropWhile_cons, hc,
      List.dropWhile_cons, hc]
    simp only [Bool.false_eq_true, if_false]
    rw [show (c :: (t ++ [a])) = (c :: t) ++ [a] by simp, List.reverse_append]
    rw [show ([a].reverse ++ (c :: t).reverse)
        = a :: (c :: t).reverse by simp]
    rw [List.dropWhile_cons, ha]
    simp

lemma intRepr_nonneg {i : Int} (h : 0 ≤ i) : intRepr i = natRepr i.toNat := by
  rw [intRepr, if_neg (not_lt.mpr h)]

lemma mem_of_getLast? {l : List Char} {a : Char} (h : l.getLast? = some a) : a ∈ l := by
  rw [← List.head?_reverse] at h
  rcases hrev : l.reverse with _ | ⟨d, r⟩
  · rw [hrev] at h; exact absurd h (by simp)
  · rw [hrev] at h
    have had : a = d := by injection h with h2; exact h2.symm
    subst had
    rw [← List.mem_reverse, hrev]
    exact List.mem_cons_self a r

lemma natRepr_not_ws (n : Nat) : ∀ c ∈ natRepr n, isPyWS c = false := by
  intro c hc
  have hall : ∀ c ∈ str "0123456789", isPyWS c = false := by decide
  exact hall c (natRepr_mem n c hc)

lemma rawFields_good {u : URLInfo} (hv : ValidEntry u) : ∀ f ∈ rawFields u, goodField f := by
  obtain ⟨h1, h2, h3, h4, h5, h6, h7, h8, _⟩ := hv
  intro f hf
  simp only [rawFields, List.mem_cons, List.not_mem_nil, or_false] at hf
  rcases hf with rfl | rfl | rfl | rfl | rfl | rfl | rfl | rfl
  · exact h1
  · rw [h8]; exact goodField_md5 u.url
  · exact h2
  · exact h3
  · exact h4
  · exact h5
  · rw [intRepr_nonneg h7]; exact goodField_natRepr _
  · exact h6

lemma rawFields_tabfree {u : URLInfo} (hv : ValidEntry u) :
    ∀ f ∈ rawFields u, ∀ c ∈ f, c ≠ '\t' :=
  fun f hf c hc => (rawFields_good hv f hf c hc).1

lemma to_tsv_line_eq {u : URLInfo} (hv : ValidEntry u) :
    u.to_tsv_line = joinTab (rawFields u) := by
  rw [URLInfo.to_tsv_line, sanitize_error_id hv.2.2.2.2.2.1]
  rfl

lemma rawFields_eq_snoc (u : URLInfo) :
    rawFields u = [u.url, u.hash, u.filename, u.fetch_date, u.status,
      u.content_type, intRepr u.size] ++ [u.error] := rfl

lemma rawRow_head {u : URLInfo} (he : EdgeClean u) :
    ∀ c, (joinTab (rawFields u)).head? = some c → isPyWS c = false := by
  intro c hc
  rw [show rawFields u = u.url :: [u.hash, u.filename, u.fetch_date, u.status,
      u.content_type, intRepr u.size, u.error] from rfl,
    joinTab_head? u.url _ he.1] at hc
  exact he.2.1 c hc

lemma first7_head {u : URLInfo} (he : EdgeClean u) :
    ∀ c, (joinTab [u.url, u.hash, u.filename, u.fetch_date, u.status,
      u.content_type, intRepr u.size]).head? = some c → isPyWS c = false := by
  intro c hc
  rw [joinTab_head? u.url _ he.1] at hc
  exact he.2.1 c hc

lemma strip_split_row {u : URLInfo} (hv : ValidEntry u) (he : EdgeClean u) :
    splitTab (pyStrip (joinTab (rawFields u)))
      = if u.error = [] then [u.url, u.hash, u.filename, u.fetch_date, u.status,
          u.content_type, intRepr u.size] else rawFields u := by
  have hsize7 : (0:Int) ≤ u.size := hv.2.2.2.2.2.2.1
  have hfirst7good : ∀ f ∈ [u.url, u.hash, u.filename, u.fetch_date, u.status,
      u.content_type, intRepr u.size], ∀ c ∈ f, c ≠ '\t' := by
    intro f hf
    apply rawFields_tabfree hv
    rw [rawFields_eq_snoc]
    exact List.mem_append_left _ hf
  by_cases herr : u.error = []
  · rw [if_pos herr]
    have h7 : rawFields u = [u.url, u.hash, u.filename, u.fetch_date, u.status,
        u.content_type, intRepr u.size] ++ [[]] := by
      rw [rawFields_eq_snoc, herr]
    rw [h7, joinTab_snoc_nil _ (by exact List.noConfusion),
      pyStrip_concat_ws _ '\t' (by decide) (first7_head he),
      pyStrip_id _ (first7_head he) ?last]
    case last =>
      intro c hc
      rw [show [u.url, u.hash, u.filename, u.fetch_date, u.status,
          u.content_type, intRepr u.size]
          = [u.url, u.hash, u.filename, u.fetch_date, u.status,
          u.content_type] ++ [intRepr u.size] from rfl,
        joinTab_getLast? _ _ (by rw [intRepr_nonneg hsize7]; exact natRepr_ne_nil _)] at hc
      have hmem := mem_of_getLast? hc
      rw [intRepr_nonneg hsize7] at hmem
      exact natRepr_not_ws _ c hmem
    exact splitTab_joinTab _ (by exact List.noConfusion) hfirst7good
  · rw [if_neg herr]
    rw [pyStrip_id _ (rawRow_head he) ?last2]
    case last2 =>
      intro c hc
      rw [rawFields_eq_snoc, joinTab_getLast? _ _ herr] at hc
      exact he.2.2 c hc
    exact splitTab_joinTab _ (by exact List.noConfusion) (rawFields_tabfree hv)

lemma from_tsv_line_roundtrip {u : URLInfo} (hv : ValidEntry u) (he : EdgeClean u) :
    URLInfo.from_tsv_line (joinTab (rawFields u)) = .ok u := by
  have hsz : (0:Int) ≤ u.size := hv.2.2.2.2.2.2.1
  have hh : u.hash = md5_hexdigest u.url := hv.2.2.2.2.2.2.2.1
  have hd : u.domain = (if u.url.isEmpty then [] else urlparse_netloc u.url) :=
    hv.2.2.2.2.2.2.2.2
  have hsize : (if pyIsDigit (intRepr u.size) then ((digitsToNat (intRepr u.size) : Int))
      else 0) = u.size := by
    rw [intRepr_nonneg hsz, if_pos (natRepr_isDigit _), digitsToNat_natRepr]
    exact Int.toNat_of_nonneg hsz
  rw [URLInfo.from_tsv_line, strip_split_row hv he]
  by_cases herr : u.error = []
  · rw [if_pos herr]
    rw [if_neg (by norm_num)]
    rw [if_neg (by norm_num)]
    simp only [nth, List.get?_cons_zero, List.get?_cons_succ, Option.getD_some,
      URLInfo.make, Except.ok.injEq]
    rcases u with ⟨url, fn, fd, stt, ct, sz, er, hsh, dom⟩
    simp only [URLInfo.mk.injEq]
    refine ⟨trivial, trivial, trivial, trivial, trivial, hsize, herr.symm, trivial, hd.symm⟩
  · rw [if_neg herr]
    rw [if_neg (by norm_num [rawFields])]
    rw [if_pos (by norm_num [rawFields])]
    simp only [nth, rawFields, List.get?_cons_zero, List.get?_cons_succ, Option.getD_some,
      URLInfo.make, Except.ok.injEq]
    rcases u with ⟨url, fn, fd, stt, ct, sz, er, hsh, dom⟩
    simp only [URLInfo.mk.injEq]
    refine ⟨trivial, trivial, trivial, trivial, trivial, hsize, trivial, trivial, hd.symm⟩

lemma isEmpty_false_of_ne_nil {xs : List Char} (h : xs ≠ []) : xs.isEmpty = false := by
  cases xs with
  | nil => exact absurd rfl h
  | cons c t => rfl

lemma split_joinlines : ∀ (ls : List (List Char)), (∀ l ∈ ls, '\n' ∉ l) →
    splitOnChar '\n' ((ls.map (fun l => l ++ ['\n'])).flatten) = ls ++ [[]] := by
  intro ls
  induction ls with
  | nil => intro _; rfl
  | cons l rest ih =>
    intro h
    rw [List.map_cons, List.flatten_cons,
      show (l ++ ['\n']) ++ (rest.map (fun l => l ++ ['\n'])).flatten
        = l ++ '\n' :: (rest.map (fun l => l ++ ['\n'])).flatten by simp,
      splitOnChar_append l _ (by
        intro c hc hceq
        subst hceq
        exact h l (List.mem_cons_self l rest) hc),
      ih (fun x hx => h x (List.mem_cons_of_mem l hx))]
    rfl

lemma flatten_lines_ne_nil (l : List Char) (rest : List (List Char)) :
    ((l :: rest).map (fun x => x ++ ['\n'])).flatten ≠ [] := by
  rw [List.map_cons, List.flatten_cons]
  intro hc
  exact List.noConfusion (List.append_eq_nil.mp (List.append_eq_nil.mp hc).1).2

lemma pyLines_joinlines : ∀ (ls : List (List Char)), (∀ l ∈ ls, '\n' ∉ l) →
    pyLines ((ls.map (fun l => l ++ ['\n'])).flatten) = ls := by
  intro ls h
  cases ls with
  | nil => rfl
  | cons l rest =>
    rw [pyLines, if_neg (by
      rw [isEmpty_false_of_ne_nil (flatten_lines_ne_nil l rest)]
      exact Bool.false_ne_true)]
    rw [split_joinlines _ h,
      show l :: rest ++ [[]] = (l :: rest) ++ [([] : List Char)] from rfl,
      List.getLast?_concat, if_pos rfl, List.dropLast_concat]

lemma filterMap_all_some {α β : Type} (g : α → Option β) (h : α → β) :
    ∀ (l : List α), (∀ a ∈ l, g a = some (h a)) → l.filterMap g = l.map h := by
  intro l
  induction l with
  | nil => intro _; rfl
  | cons a t ih =>
    intro hall
    rw [List.filterMap_cons, hall a (List.mem_cons_self a t), List.map_cons,
      ih (fun x hx => hall x (List.mem_cons_of_mem a hx))]

lemma renderTSV_flatten (header : List (List Char)) (data : List (List (List Char)))
    (hh : ¬header.isEmpty = true) :
    renderTSV header data
      = ((joinTab (header.map sanitize_tsv_field)
          :: data.map (fun row => joinTab (row.map sanitize_tsv_field))).map
          (fun l => l ++ ['\n'])).flatten := by
  rw [renderTSV, if_neg hh, List.map_cons, List.flatten_cons, List.map_map]
  rfl

lemma saveFile_eq (entries : List URLInfo) (hval : ∀ u ∈ entries, ValidEntry u) :
    Cache.saveFile entries
      = ((joinTab cacheHeader :: entries.map (fun u => joinTab (rawFields u))).map
          (fun l => l ++ ['\n'])).flatten := by
  rw [Cache.saveFile, renderTSV_flatten _ _ (by decide)]
  have hhd : joinTab (cacheHeader.map sanitize_tsv_field) = joinTab cacheHeader := by decide
  have hdata : (entries.map (fun u => splitTab u.to_tsv_line)).map
      (fun row => joinTab (row.map sanitize_tsv_field))
      = entries.map (fun u => joinTab (rawFields u)) := by
    rw [List.map_map]
    apply List.map_congr_left
    intro u hu
    show joinTab ((splitTab u.to_tsv_line).map sanitize_tsv_field) = joinTab (rawFields u)
    rw [to_tsv_line_eq (hval u hu),
      splitTab_joinTab _ (by rw [rawFields_eq_snoc]; simp) (rawFields_tabfree (hval u hu))]
    have hid : ∀ f ∈ rawFields u, sanitize_tsv_field f = f :=
      fun f hf => sanitize_tsv_field_id (rawFields_good (hval u hu) f hf)
    rw [List.map_congr_left hid]
    exact congrArg joinTab (List.map_id' _)
  rw [hhd, hdata]

lemma line_nl_free {u : URLInfo} (hval : ValidEntry u) :
    '\n' ∉ joinTab (rawFields u) := by
  intro hc
  rcases mem_joinTab (rawFields u) '\n' hc with h | ⟨f, hf, hcf⟩
  · exact absurd h (by decide)
  · exact (rawFields_good hval f hf '\n' hcf).2.1 rfl

lemma url_head_exists {u : URLInfo} (he : EdgeClean u) :
    ∃ c, u.url.head? = some c ∧ isPyWS c = false := by
  rcases hu : u.url with _ | ⟨c, t⟩
  · exact absurd hu he.1
  · refine ⟨c, rfl, ?_⟩
    apply he.2.1
    rw [hu]
    rfl

lemma loadFromFile_rows (entries : List URLInfo) (hval : ∀ u ∈ entries, ValidEntry u)
    (hedge : ∀ u ∈ entries, EdgeClean u) :
    TSVManager.load (some (Cache.saveFile entries))
      = (splitTab (pyStrip (joinTab cacheHeader)),
         entries.map (fun u => splitTab (pyStrip (joinTab (rawFields u))))) := by
  rw [saveFile_eq entries hval, TSVManager.load]
  rw [pyLines_joinlines _ (by
    intro l hl
    rcases List.mem_cons.mp hl with rfl | hl'
    · decide
    · obtain ⟨u, hu, rfl⟩ := List.mem_map.mp hl'
      exact line_nl_free (hval u hu))]
  show (splitTab (pyStrip (joinTab cacheHeader)),
      (entries.map (fun u => joinTab (rawFields u))).filterMap _) = _
  congr 1
  rw [List.filterMap_map]
  apply filterMap_all_some
  intro u hu
  show (if (pyStrip (joinTab (rawFields u))).isEmpty = true then none
      else some (splitTab (pyStrip (joinTab (rawFields u)))))
    = some (splitTab (pyStrip (joinTab (rawFields u))))
  rw [if_neg]
  have hne : pyStrip (joinTab (rawFields u)) ≠ [] := by
    obtain ⟨c0, hc0, hws⟩ := url_head_exists (hedge u hu)
    apply pyStrip_ne_nil _ hws
    rw [show rawFields u = u.url :: [u.hash, u.filename, u.fetch_date, u.status,
        u.content_type, intRepr u.size, u.error] from rfl,
      joinTab_head? u.url _ (hedge u hu).1]
    exact hc0
  rw [isEmpty_false_of_ne_nil hne]
  exact Bool.false_ne_true

lemma upsertEntry_append {entries : List URLInfo} {v : URLInfo}
    (h : ∀ e ∈ entries, e.url ≠ v.url) : upsertEntry entries v = entries ++ [v] := by
  rw [upsertEntry, if_neg]
  intro hany
  obtain ⟨e, he, hbeq⟩ := List.any_eq_true.mp hany
  exact h e he (eq_of_beq hbeq)

lemma foldl_loadStep_all_ok :
    ∀ (us : List URLInfo) (acc : List URLInfo × Nat),
      (∀ u ∈ us, ValidEntry u ∧ EdgeClean u) →
      us.Pairwise (fun a b => a.url ≠ b.url) →
      (∀ u ∈ us, ∀ e ∈ acc.1, e.url ≠ u.url) →
      (us.map (fun u => splitTab (pyStrip (joinTab (rawFields u))))).foldl loadStep acc
        = (acc.1 ++ us, acc.2) := by
  intro us
  induction us with
  | nil => intro acc _ _ _; simp
  | cons u rest ih =>
    intro acc hvv hp hacc
    rw [List.map_cons, List.foldl_cons]
    have hv := (hvv u (List.mem_cons_self u rest)).1
    have he := (hvv u (List.mem_cons_self u rest)).2
    have hstep : loadStep acc (splitTab (pyStrip (joinTab (rawFields u))))
        = (acc.1 ++ [u], acc.2) := by
      rw [loadStep, strip_split_row hv he]
      by_cases herr : u.error = []
      · rw [if_pos herr]
        rw [if_pos (by norm_num)]
        have hpad : [u.url, u.hash, u.filename, u.fetch_date, u.status,
            u.content_type, intRepr u.size] ++ List.replicate (8 - 7) ([] : List Char)
            = rawFields u := by
          rw [rawFields_eq_snoc, herr]
          rfl
        rw [show (8 - List.length [u.url, u.hash, u.filename, u.fetch_date, u.status,
            u.content_type, intRepr u.size]) = 8 - 7 from by norm_num, hpad,
          from_tsv_line_roundtrip hv he]
        show (upsertEntry acc.1 u, acc.2) = (acc.1 ++ [u], acc.2)
        rw [upsertEntry_append (hacc u (List.mem_cons_self u rest))]
      · rw [if_neg herr]
        rw [if_pos (by norm_num [rawFields])]
        rw [show (8 - (rawFields u).length) = 0 from by norm_num [rawFields],
          List.replicate_zero, List.append_nil, from_tsv_line_roundtrip hv he]
        show (upsertEntry acc.1 u, acc.2) = (acc.1 ++ [u], acc.2)
        rw [upsertEntry_append (hacc u (List.mem_cons_self u rest))]
    rw [hstep]
    rw [ih (acc.1 ++ [u], acc.2)
      (fun v hvm => hvv v (List.mem_cons_of_mem u hvm))
      ((List.pairwise_cons.mp hp).2)
      (by
        intro v hv2 e he2
        rcases List.mem_append.mp he2 with h1 | h1
        · exact hacc v (List.mem_cons_of_mem u hv2) e h1
        · rw [List.mem_singleton] at h1
          subst h1
          exact (List.pairwise_cons.mp hp).1 v hv2)]
    simp

/-- C4 counterexample: the claim's validity conditions (fields free of
tab/CR/LF, non-negative size, hash the digest of the url) admit a record whose
error field ends in a space; saving and reloading strips that trailing space,
so the reloaded record's error differs from the original. -/
theorem cache_roundtrip_trailing_space_cex :
    ValidEntry (URLInfo.make (str "http://e/a") [] [] (str "error") [] 0 (str "x "))
      ∧ (Cache.loadFromFile (some (Cache.saveFile
          [URLInfo.make (str "http://e/a") [] [] (str "error") [] 0 (str "x ")]))).1.map
          URLInfo.error = [str "x"]
      ∧ str "x" ≠ str "x " := by
  refine ⟨?_, by decide, by decide⟩
  refine ⟨by decide, by decide, by decide, by decide, by decide, by decide,
    by decide, by decide, by decide⟩

/-- C4 (amended): for records whose fields are free of tab, CR and LF, whose
size is a non-negative integer, whose hash and domain are the derived values,
whose urls are nonempty, pairwise distinct and do not start with whitespace,
and whose error fields do not end with whitespace, `Cache.save()` followed by
`Cache.load()` in a fresh instance yields exactly the original records — all
fields identical, including an empty error field — with no parse warnings.
(The whitespace edge conditions are forced by the line stripping `load`
performs; without them the counterexample record loses its trailing space.) -/
theorem cache_roundtrip (entries : List URLInfo)
    (hval : ∀ u ∈ entries, ValidEntry u)
    (hedge : ∀ u ∈ entries, EdgeClean u)
    (hnd : entries.Pairwise (fun a b => a.url ≠ b.url)) :
    Cache.loadFromFile (some (Cache.saveFile entries)) = (entries, 0) := by
  rw [Cache.loadFromFile, loadFromFile_rows entries hval hedge, Cache.loadEntries]
  show (entries.map (fun u => splitTab (pyStrip (joinTab (rawFields u))))).foldl
      loadStep ([], 0) = (entries, 0)
  rw [foldl_loadStep_all_ok entries ([], 0)
    (fun u hu => ⟨hval u hu, hedge u hu⟩) hnd (fun u _ e he => absurd he (List.not_mem_nil e))]
  rfl

/-- C4 witness: a concrete record with an empty error field — and a second
record under a different url — round-trips exactly through save and load. -/
theorem cache_roundtrip_witness :
    Cache.loadFromFile (some (Cache.saveFile
        [URLInfo.make (str "http://e/a") (str "f.html") (str "d") (str "success")
          (str "text/html") 12 [],
         URLInfo.make (str "http://e/b") [] [] (str "error") [] 0 (str "boom")]))
      = ([URLInfo.make (str "http://e/a") (str "f.html") (str "d") (str "success")
          (str "text/html") 12 [],
         URLInfo.make (str "http://e/b") [] [] (str "error") [] 0 (str "boom")], 0) :=
  cache_roundtrip _
    (by
      intro u hu
      rcases List.mem_cons.mp hu with rfl | hu'
      · exact ⟨by decide, by decide, by decide, by decide, by decide, by decide,
          by decide, by decide, by decide⟩
      · rw [List.mem_singleton] at hu'
        subst hu'
        exact ⟨by decide, by decide, by decide, by decide, by decide, by decide,
          by decide, by decide, by decide⟩)
    (by
      intro u hu
      rcases List.mem_cons.mp hu with rfl | hu'
      · exact ⟨by decide, by decide, by decide⟩
      · rw [List.mem_singleton] at hu'
        subst hu'
        exact ⟨by decide, by decide, by decide⟩)
    (by
      rw [List.pairwise_cons]
      refine ⟨?_, by simp⟩
      intro v hv
      rw [List.mem_singleton] at hv
      subst hv
      decide)

end Url2md
